/-
Verification development for the Fluorine-Manager overlay VFS.

The definitions below are shallow embeddings of the C++ sources:

  * `fuseconnector.cpp`   — mount lifecycle, staging promotion, external
    mapping deployment, stale-mount cleanup, crash-cleanup buffer;
  * `vfs/vfs_helper_main.cpp` — the sandbox helper's command loop and its
    own staging promotion;
  * `nxmhandler_linux.cpp` — `NxmLink::parse`;
  * `wineprefix.cpp`      — stale backup restoration.

Filesystem state is modelled as an association list from paths (lists of
path segments, as produced by `QDir::cleanPath` / `std::filesystem::path`
decomposition) to entries (directory, regular file with content, symlink
with target).  I/O failures other than the ones a function explicitly
branches on (e.g. `fs::rename` failing and falling back to copy+delete)
are outside the model; where a source function swallows an error code and
carries on, the model notes it next to the definition.
-/
import Mathlib

set_option maxRecDepth 4096

namespace Fluorine

/-! ## Paths and association-list stores -/

/-- A filesystem path as a list of its segments. -/
abbrev Path := List String

/-- First binding of `p` in an association list (the filesystem has at most
one entry per path; `setA`/`eraseA` keep keys unique). -/
def findA {α : Type} : List (Path × α) → Path → Option α
  | [], _ => none
  | (q, v) :: rest, p => if q = p then some v else findA rest p

/-- Remove every binding of `p`. -/
def eraseA {α : Type} : List (Path × α) → Path → List (Path × α)
  | [], _ => []
  | (q, v) :: rest, p => if q = p then eraseA rest p else (q, v) :: eraseA rest p

/-- Bind `p` to `v` (replacing any previous binding). -/
def setA {α : Type} (m : List (Path × α)) (p : Path) (v : α) : List (Path × α) :=
  (p, v) :: eraseA m p

/-- `isUnder p q`: `q` is a (not necessarily proper) leading segment chain of
`p`, i.e. the file `p` lies at or below the directory `q`.  This is what the
source's `dst == QDir::cleanPath(dir) || dst.startsWith(dir + "/")` and
`fs::relative`-based checks compute on cleaned paths. -/
def isUnder {α : Type} [DecidableEq α] : List α → List α → Bool
  | _, [] => true
  | [], _ :: _ => false
  | a :: p, b :: q => if a = b then isUnder p q else false

/-- `p` lies strictly below the directory `q`. -/
def isStrictUnder {α : Type} [DecidableEq α] (p q : List α) : Bool :=
  isUnder p q && decide (p ≠ q)

/-- The proper ancestors of `p` (nonempty strict leading chains), shortest
first: the directories `fs::create_directories(p.parent_path())` ensures. -/
def parentChain : Path → List Path
  | [] => []
  | s :: rest =>
    match rest with
    | [] => []
    | _ :: _ => [s] :: (parentChain rest).map (fun t => s :: t)

/-- `p` together with its proper ancestors, shortest first: the directories
`fs::create_directories(p)` ensures. -/
def chainPaths (p : Path) : List Path :=
  match p with
  | [] => []
  | _ :: _ => parentChain p ++ [p]

/-! ## Filesystem entries -/

/-- A directory entry, a regular file with its content, or a symlink with
its target. -/
inductive FsEntry : Type where
  | dirE : FsEntry
  | fileE : String → FsEntry
  | linkE : Path → FsEntry
deriving DecidableEq

/-- A filesystem: bindings from absolute (or root-relative) paths to entries. -/
abbrev Fs := List (Path × FsEntry)

def findE (fs : Fs) (p : Path) : Option FsEntry := findA fs p

def isDirAt (fs : Fs) (p : Path) : Bool :=
  match findE fs p with
  | some .dirE => true
  | _ => false

def isFileAt (fs : Fs) (p : Path) : Bool :=
  match findE fs p with
  | some (.fileE _) => true
  | _ => false

def isLinkAt (fs : Fs) (p : Path) : Bool :=
  match findE fs p with
  | some (.linkE _) => true
  | _ => false

/-- `std::filesystem::create_directories` over an explicit list of the
directories to ensure, shortest first: a missing one is created, an existing
directory is kept, and hitting a non-directory entry aborts the walk (the
syscall fails with `ENOTDIR`/`EEXIST`; the sources discard the error code). -/
def mkdirsGo : Fs → List Path → Fs
  | fs, [] => fs
  | fs, q :: qs =>
    match findE fs q with
    | none => mkdirsGo (setA fs q .dirE) qs
    | some .dirE => mkdirsGo fs qs
    | some (.fileE _) => fs
    | some (.linkE _) => fs

/-! ## C10 — crash-cleanup mount-point buffer (fuseconnector.cpp lines 30-45)

The 4096-byte `static char g_fuseMountPoint[4096]` is modelled as a list of
byte values.  A C string argument is a NUL-free byte list; `none` models the
null pointer. -/

def fuseBufSize : Nat := 4096

/-- `setFuseMountPointForCrashCleanup`: `strncpy(buf, path, 4095)` (copy up
to 4095 bytes, NUL-pad the remainder of those 4095 bytes when the source is
shorter) followed by `buf[4095] = 0`; for a null pointer only `buf[0] = 0`
is written. -/
def setFuseMountPointForCrashCleanup (path : Option (List Nat)) (buf : List Nat) : List Nat :=
  match path with
  | some p =>
    p.take (fuseBufSize - 1) ++
      List.replicate (fuseBufSize - 1 - min p.length (fuseBufSize - 1)) 0 ++ [0]
  | none => 0 :: buf.drop 1

/-- `getFuseMountPointForCrashCleanup`: returns the stored C string (the
bytes before the first NUL) or `none` when `buf[0] == 0`. -/
def getFuseMountPointForCrashCleanup (buf : List Nat) : Option (List Nat) :=
  match buf with
  | [] => none
  | b :: _ => if b = 0 then none else some (buf.takeWhile (fun x => x != 0))

/-- The C string a buffer holds (bytes before the first NUL). -/
def storedCString (buf : List Nat) : List Nat :=
  buf.takeWhile (fun x => x != 0)

/-! ## C6 — helper command loop responses (vfs_helper_main.cpp lines 275-327)

Only the response lines the loop writes to stdout are modelled: `rebuild`
and `flush` each answer `ok`; `quit` breaks out of the loop; any other line
is silently ignored; and after the loop (on `quit` or end of input) the
shutdown path prints one final `ok`.  The tree/staging side effects of the
commands are modelled separately (see `flushStagingRun` and the tree
builders) and do not influence which lines are printed. -/

def helperResponses : List String → List String
  | [] => ["ok"]
  | line :: rest =>
    if line = "rebuild" then "ok" :: helperResponses rest
    else if line = "flush" then "ok" :: helperResponses rest
    else if line = "quit" then ["ok"]
    else helperResponses rest

/-- How many `rebuild`/`flush` commands the loop acknowledges before it
stops (at `quit` or at end of input). -/
def helperAckCount : List String → Nat
  | [] => 0
  | line :: rest =>
    if line = "rebuild" then helperAckCount rest + 1
    else if line = "flush" then helperAckCount rest + 1
    else if line = "quit" then 0
    else helperAckCount rest

/-! ## C4 — stale-mount detection and cleanup (fuseconnector.cpp lines 706-753)

The environment is a probe of the mount target (`/proc/mounts` membership
and the `stat` outcome) plus an oracle saying which unmount commands would
succeed.  `mountReachesSessionMount` models the prefix of
`FuseConnector::mount` relevant to the claim (non-Flatpak branch): the data
directory existence check, then `tryCleanupStaleMount`, whose outcome is
ignored — control always continues towards `fuse_session_mount`. -/

inductive UnmountCmd : Type where
  | fusermount3_u : UnmountCmd
  | fusermount_u : UnmountCmd
  | umount_plain : UnmountCmd
  | umount_lazy : UnmountCmd
  | fusermount3_uz : UnmountCmd
  | fusermount_uz : UnmountCmd
deriving DecidableEq

structure MountProbe : Type where
  /-- `/proc/mounts` lists the (cleaned) target path (`isMountPoint`). -/
  inMountTable : Bool
  /-- `none`: `stat` on the target succeeded; `some e`: it failed with errno `e`. -/
  statErrno : Option Nat
deriving DecidableEq

def ENOTCONN : Nat := 107

/-- `isStaleOrMounted`: the target is in the mount table, or `stat` fails
with `ENOTCONN`. -/
def isStaleOrMounted (pr : MountProbe) : Bool :=
  pr.inMountTable ||
    (match pr.statErrno with
     | some e => e == ENOTCONN
     | none => false)

/-- `doUnmount`: the unmount commands actually run, in order.  Graceful
`fusermount3 -u` then `fusermount -u`; only when both fail, the force/lazy
escalation `umount`, `umount -l`, `fusermount3 -uz`, `fusermount -uz` (all
four are run unconditionally; the trailing re-probe only logs). -/
def doUnmount (ok : UnmountCmd → Bool) : List UnmountCmd :=
  if ok .fusermount3_u then [.fusermount3_u]
  else if ok .fusermount_u then [.fusermount3_u, .fusermount_u]
  else [.fusermount3_u, .fusermount_u, .umount_plain, .umount_lazy,
        .fusermount3_uz, .fusermount_uz]

/-- `tryCleanupStaleMount`: runs `doUnmount` when the probe signals a stale
mount, otherwise nothing; it returns `void` in the source. -/
def tryCleanupStaleMount (pr : MountProbe) (ok : UnmountCmd → Bool) : List UnmountCmd :=
  if isStaleOrMounted pr then doUnmount ok else []

/-- The prefix of `FuseConnector::mount` around the cleanup: after the data
directory existence check, stale cleanup runs and then control proceeds to
session creation and `fuse_session_mount` regardless of the cleanup outcome
(second component: whether the flow reaches the mount attempt). -/
def mountReachesSessionMount (dataDirAlive : Bool) (pr : MountProbe)
    (ok : UnmountCmd → Bool) : List UnmountCmd × Bool :=
  if dataDirAlive then (tryCleanupStaleMount pr ok, true) else ([], false)

/-! ## C5 — `NxmLink::parse` (nxmhandler_linux.cpp lines 102-144)

The URL is modelled at the `QUrl` boundary: validity flag, scheme, host,
path string and the decoded query pairs.  `QString::toULongLong` /
`toInt` are modelled on trimmed digit strings (an optional sign, then
decimal digits, rejecting overflow past the 64-bit / 31-bit bound); Qt's
whitespace tolerance around the number is not modelled, which does not
affect which component sets are accepted. -/

structure NxmUrl : Type where
  isValid : Bool
  scheme : String
  host : String
  path : String
  query : List (String × String)
deriving DecidableEq

structure NxmLink : Type where
  game_domain : String
  mod_id : Nat
  file_id : Nat
  key : String
  expires : Nat
  user_id : Int
deriving DecidableEq

/-- `QUrlQuery::queryItemValue`: value of the first pair with the given key,
or the empty string when the key is absent. -/
def queryItemValue (q : List (String × String)) (k : String) : String :=
  match q.find? (fun kv => kv.1 == k) with
  | some kv => kv.2
  | none => ""

def digitsToNat (cs : List Char) : Nat :=
  cs.foldl (fun acc c => acc * 10 + (c.toNat - 48)) 0

/-- `QString::toULongLong(&ok)`: `some` exactly when the string is a
non-empty run of decimal digits (optionally after `+`) whose value fits in
an unsigned 64-bit integer. -/
def qtToULongLong (s : String) : Option Nat :=
  let cs := match s.data with
    | '+' :: rest => rest
    | cs => cs
  if cs ≠ [] ∧ cs.all Char.isDigit = true then
    if digitsToNat cs < 2 ^ 64 then some (digitsToNat cs) else none
  else none

/-- `QString::toInt()` with no ok-pointer: the parsed value, or 0 on any
failure (including overflow past the 31-bit bound). -/
def qtToInt (s : String) : Int :=
  let signed : Bool × List Char := match s.data with
    | '-' :: rest => (true, rest)
    | '+' :: rest => (false, rest)
    | cs => (false, cs)
  if signed.2 ≠ [] ∧ signed.2.all Char.isDigit = true then
    if signed.1 then
      if digitsToNat signed.2 ≤ 2 ^ 31 then -(digitsToNat signed.2 : Int) else 0
    else
      if digitsToNat signed.2 < 2 ^ 31 then (digitsToNat signed.2 : Int) else 0
  else 0

/-- `QString::compare(s, "nxm", Qt::CaseInsensitive)` modelled by lowering. -/
def toLowerStr (s : String) : String := String.map Char.toLower s

/-- `path().split('/', Qt::SkipEmptyParts)`. -/
def splitSkipEmpty (s : String) : List String :=
  (s.splitOn "/").filter (fun t => t != "")

/-- `NxmLink::parse`. -/
def NxmLink.parse (u : NxmUrl) : Option NxmLink :=
  if u.isValid = false ∨ toLowerStr u.scheme ≠ "nxm" then none
  else
    let gameDomain := u.host.trim
    if gameDomain = "" then none
    else
      let parts := splitSkipEmpty u.path
      if parts.length ≠ 4 ∨ parts.getD 0 "" ≠ "mods" ∨ parts.getD 2 "" ≠ "files" then none
      else
        match qtToULongLong (parts.getD 1 ""), qtToULongLong (parts.getD 3 "") with
        | some modId, some fileId =>
          let key := queryItemValue u.query "key"
          if key = "" then none
          else
            match qtToULongLong (queryItemValue u.query "expires") with
            | some expires =>
              some ⟨gameDomain, modId, fileId, key, expires,
                    qtToInt (queryItemValue u.query "user_id")⟩
            | none => none
        | _, _ => none

/-! ## C9 — `buildModsFromMapping` (fuseconnector.cpp lines 174-210)

Mappings carry cleaned paths (`QDir::cleanPath ∘ QDir::fromNativeSeparators`
is applied by the source before every comparison; the model works on the
cleaned segment lists directly). -/

structure QMapping : Type where
  isDirectory : Bool
  source : Path
  destination : Path
deriving DecidableEq

/-- Loop body of `buildModsFromMapping`: skip non-directory mappings,
destinations outside the data directory and overwrite-rooted sources; the
`std::set<std::string> seen` insert drops duplicate sources; a kept mapping
contributes `(QFileInfo(src).fileName(), src)`. -/
def buildModsStep (dataDir overwriteDir : Path)
    (acc : List (String × Path) × List Path) (m : QMapping) :
    List (String × Path) × List Path :=
  if m.isDirectory = false then acc
  else if isUnder m.destination dataDir = false then acc
  else if isUnder m.source overwriteDir = true then acc
  else if m.source ∈ acc.2 then acc
  else (acc.1 ++ [(m.source.getLastD "", m.source)], m.source :: acc.2)

/-- `buildModsFromMapping`: the fold over the mapping set with the `seen`
set of sources. -/
def buildModsFromMapping (mapping : List QMapping) (dataDir overwriteDir : Path) :
    List (String × Path) :=
  (mapping.foldl (buildModsStep dataDir overwriteDir) ([], [])).1

/-- The claim's description of which mappings survive: directory-level,
destination at or under the data directory, source not at or under the
overwrite directory. -/
def keptMapping (dataDir overwriteDir : Path) (m : QMapping) : Bool :=
  m.isDirectory && isUnder m.destination dataDir && !(isUnder m.source overwriteDir)

/-- Drop mappings whose source was already seen, keeping first occurrences
and preserving order. -/
def dedupBySource : List QMapping → List Path → List QMapping
  | [], _ => []
  | m :: rest, seen =>
    if m.source ∈ seen then dedupBySource rest seen
    else m :: dedupBySource rest (m.source :: seen)

/-- The claim's description of `buildModsFromMapping`, assembled from
`keptMapping`, first-occurrence dedup by source, and basename naming. -/
def specModsFromMapping (mapping : List QMapping) (dataDir overwriteDir : Path) :
    List (String × Path) :=
  (dedupBySource (mapping.filter (keptMapping dataDir overwriteDir)) []).map
    (fun m => (m.source.getLastD "", m.source))

/-! ## C2/C3 — staging promotion (`flushStaging`, fuseconnector.cpp lines
619-663; the helper's `flushStaging`, vfs_helper_main.cpp lines 99-140, is
line-for-line the same algorithm)

The staging directory is `none` when absent (`!fs::exists(staging)`), or the
list of entries its `recursive_directory_iterator` yields, each with its
path relative to the staging root, its kind, and (for regular files) its
content.  The overwrite directory is an `Fs` of overwrite-relative paths.
`fs::rename` and the copy+delete fallback move the same bytes to the same
destination, so in the model both branches of the fallback perform the same
update; the `renameOk` oracle records which branch runs. -/

inductive StKind : Type where
  | dirK : StKind
  | regK : StKind
  | otherK : StKind
deriving DecidableEq

structure StEntry : Type where
  rel : Path
  kind : StKind
  content : String
deriving DecidableEq

/-- Moving one staged regular file to `p` in the overwrite directory:
`fs::create_directories(dest.parent_path())`, then `fs::rename` with the
copy+delete fallback.  The move lands only when the parent chain consists of
directories and the destination is not itself a directory (otherwise both
the rename and the fallback copy fail with an absorbed error code). -/
def moveStagedFile (renameOk : Path → Bool) (fs : Fs) (p : Path) (c : String) : Fs :=
  let fs1 := mkdirsGo fs (parentChain p)
  if (parentChain p).all (fun q => isDirAt fs1 q) && !isDirAt fs1 p then
    if renameOk p then setA fs1 p (.fileE c)
    else setA fs1 p (.fileE c)
  else fs1

/-- One iteration of the `recursive_directory_iterator` loop body. -/
def flushStep (renameOk : Path → Bool) (fs : Fs) (e : StEntry) : Fs :=
  match e.kind with
  | .dirK => mkdirsGo fs (chainPaths e.rel)
  | .regK => moveStagedFile renameOk fs e.rel e.content
  | .otherK => fs

/-- `flushStaging`: no-op when the staging directory does not exist;
otherwise every entry is processed and `fs::remove_all(staging)` removes
the staging directory.  Result: (staging directory after, overwrite
directory after). -/
def flushStagingRun (renameOk : Path → Bool) (staging : Option (List StEntry))
    (ow : Fs) : Option (List StEntry) × Fs :=
  match staging with
  | none => (none, ow)
  | some entries => (none, entries.foldl (flushStep renameOk) ow)

/-! ## C7 — external mapping deployment (fuseconnector.cpp lines 485-604) -/

/-- Deploying one symlink at `dest` pointing at `target`
(`fs::create_directories(dest.parent_path())`, then: skip when a
non-symlink exists at `dest`; remove an existing symlink; create the
symlink and record it in `m_externalSymlinks`). -/
def deploySymlinkAt (fs : Fs) (links : List Path) (dest target : Path) :
    Fs × List Path :=
  let fs1 := mkdirsGo fs (parentChain dest)
  match findE fs1 dest with
  | some (.linkE _) => (setA fs1 dest (.linkE target), links ++ [dest])
  | some _ => (fs1, links)
  | none => (setA fs1 dest (.linkE target), links ++ [dest])

/-- The entries `fs::recursive_directory_iterator(src)` yields, as
(source-relative path, entry) pairs in store order. -/
def entriesUnder (fs : Fs) (src : Path) : List (Path × FsEntry) :=
  fs.filterMap (fun pe =>
    if isStrictUnder pe.1 src then some (pe.1.drop src.length, pe.2) else none)

/-- Loop body of the directory-mapping walk: directories get
`fs::create_directories(dest)`; regular files and symlinks get a symlink
deployment. -/
def walkStep (dst src : Path) (acc : Fs × List Path) (entry : Path × FsEntry) :
    Fs × List Path :=
  match entry.2 with
  | .dirE => (mkdirsGo acc.1 (chainPaths (dst ++ entry.1)), acc.2)
  | .fileE _ => deploySymlinkAt acc.1 acc.2 (dst ++ entry.1) (src ++ entry.1)
  | .linkE _ => deploySymlinkAt acc.1 acc.2 (dst ++ entry.1) (src ++ entry.1)

/-- The mount-relative path recorded for a file-level data-dir mapping. -/
def extraRelPath (m : QMapping) (dataDir : Path) : Path :=
  if isStrictUnder m.destination dataDir then m.destination.drop dataDir.length
  else [m.source.getLastD ""]

/-- One mapping of the `deployExternalMappings` loop.  State: (filesystem,
`m_externalSymlinks`, `m_extraVfsFiles`). -/
def deployMapStep (dataDir : Path) (acc : Fs × List Path × List (Path × Path))
    (m : QMapping) : Fs × List Path × List (Path × Path) :=
  if isUnder m.destination dataDir then
    if m.isDirectory then acc
    else (acc.1, acc.2.1, acc.2.2 ++ [(extraRelPath m dataDir, m.source)])
  else if m.isDirectory then
    if (findE acc.1 m.source).isSome then
      let r := (entriesUnder acc.1 m.source).foldl (walkStep m.destination m.source)
        (acc.1, acc.2.1)
      (r.1, r.2, acc.2.2)
    else acc
  else
    let r := deploySymlinkAt acc.1 acc.2.1 m.destination m.source
    (r.1, r.2, acc.2.2)

/-- `cleanupExternalMappings`: remove every recorded path that is still a
symlink. -/
def cleanupExternalMappings (fs : Fs) (links : List Path) : Fs :=
  links.foldl (fun acc p => if isLinkAt acc p then eraseA acc p else acc) fs

/-- `deployExternalMappings`: first `cleanupExternalMappings()` over the
previously recorded symlinks (whose list it clears), then the mapping loop.
Result: (filesystem, recorded symlinks, collected extra VFS files). -/
def deployExternalMappings (fs : Fs) (prevLinks : List Path)
    (mapping : List QMapping) (dataDir : Path) :
    Fs × List Path × List (Path × Path) :=
  (mapping.foldl (deployMapStep dataDir) (cleanupExternalMappings fs prevLinks, [], []))

/-! ## C1 — VFS tree layering and the live-flush rebuild

`buildDataDirVfs` and `injectExtraFiles` live in `vfs/vfstree.cpp`, which is
not among the repository files available here.  Modelled from the spec:
§4.2 TreeBuilder — seed with the base catalog, then each mod in order
overriding earlier layers, then the overwrite directory, while
`injectExtraFiles` applies the extra-file map as the final override,
creating or replacing a leaf per extra path.  The tree is modelled by its
file leaves: a map from mount-relative path to (origin, physical source);
intermediate directory nodes are implicit.  Directory listings are passed
in as catalogs of (relative path, physical source path) pairs. -/

inductive VfsOrigin : Type where
  | baseO : VfsOrigin
  | modO : Nat → VfsOrigin
  | overwriteO : VfsOrigin
  | extraO : VfsOrigin
deriving DecidableEq

abbrev VfsTreeM := List (Path × VfsOrigin × String)

/-- Modelled from the spec: `buildDataDirVfs` (TreeBuilder steps 1-3). -/
def buildDataDirVfs (baseCat : List (Path × String))
    (mods : List (String × List (Path × String)))
    (owCat : List (Path × String)) : VfsTreeM :=
  let t0 : VfsTreeM :=
    baseCat.foldl (fun t rs => setA t rs.1 (VfsOrigin.baseO, rs.2)) []
  let t1 :=
    (mods.enum).foldl
      (fun t im => im.2.2.foldl (fun t rs => setA t rs.1 (VfsOrigin.modO im.1, rs.2)) t) t0
  owCat.foldl (fun t rs => setA t rs.1 (VfsOrigin.overwriteO, rs.2)) t1

/-- Modelled from the spec: `injectExtraFiles` (TreeBuilder step 4 — extras
are the final override). -/
def injectExtraFiles (t : VfsTreeM) (extras : List (Path × String)) : VfsTreeM :=
  extras.foldl (fun t rs => setA t rs.1 (VfsOrigin.extraO, rs.2)) t

/-- The tree `FuseConnector::flushStagingLive` builds and swaps in
(fuseconnector.cpp lines 687-694): `buildDataDirVfs` over the cached base,
`m_lastMods` and the overwrite directory — `injectExtraFiles` is NOT
applied, although `m_extraVfsFiles` is passed here to make that visible. -/
def flushStagingLiveTree (baseCat : List (Path × String))
    (mods : List (String × List (Path × String)))
    (owCat : List (Path × String)) (_extras : List (Path × String)) : VfsTreeM :=
  buildDataDirVfs baseCat mods owCat

/-- The tree the helper's `flush` branch builds and swaps in
(vfs_helper_main.cpp lines 295-297): the same rebuild, but with
`injectExtraFiles` applied. -/
def helperFlushTree (baseCat : List (Path × String))
    (mods : List (String × List (Path × String)))
    (owCat : List (Path × String)) (extras : List (Path × String)) : VfsTreeM :=
  injectExtraFiles (buildDataDirVfs baseCat mods owCat) extras

/-- A lookup in the leaf map (does the tree have a file leaf at `p`?). -/
def findLeaf (t : VfsTreeM) (p : Path) : Option (VfsOrigin × String) := findA t p

/-! ## C8 — stale backup restoration (wineprefix.cpp lines 49-80 and 300-348) -/

def bIniSfx : String := ".mo2linux_backup"
def bSavesU : String := ".mo2linux_backup_Saves"
def bSavesL : String := ".mo2linux_backup_saves"

/-- `QString::endsWith` via reversed character lists. -/
def strEndsWith (s t : String) : Bool := isUnder s.data.reverse t.data.reverse

/-- `s.left(s.length() - t.length())` for a suffix `t` of `s`. -/
def strDropSuffix (s t : String) : String :=
  ⟨(s.data.reverse.drop t.data.length).reverse⟩

def drive_c (pfx : Path) : Path := pfx ++ ["drive_c"]

def myGamesPath (pfx : Path) : Path :=
  drive_c pfx ++ ["users", "steamuser", "Documents", "My Games"]

/-- The files `QDirIterator(root, QDir::Files | QDir::Hidden,
QDirIterator::Subdirectories)` yields (regular files strictly below
`root`), in store order. -/
def filesUnder (fs : Fs) (root : Path) : List Path :=
  fs.filterMap (fun pe =>
    match pe.2 with
    | .fileE _ => if isStrictUnder pe.1 root then some pe.1 else none
    | _ => none)

/-- `restoreBackedUpIni`: nothing when the backup does not exist; when the
live path holds a directory, `QFile::remove(live)` fails and the function
returns `false` without renaming; otherwise the live file (if any) is
removed and the backup renamed over it. -/
def restGameIni (fs : Fs) (live backup : Path) : Fs :=
  match findE fs backup with
  | none => fs
  | some bent =>
    match findE fs live with
    | some .dirE => fs
    | _ => setA (eraseA fs backup) live bent

/-- The live counterpart of a backup file path, when its name carries the
backup suffix. -/
def iniLiveOf (p : Path) : Option Path :=
  if strEndsWith (p.getLastD "") bIniSfx then
    some (p.dropLast ++ [strDropSuffix (p.getLastD "") bIniSfx])
  else none

/-- One iteration of the INI restore loop. -/
def iniStep (acc : Fs) (p : Path) : Fs :=
  match iniLiveOf p with
  | some live => restGameIni acc live p
  | none => acc

/-- The INI half of `restoreStaleBackups`: walk every file under `drive_c`,
and restore each whose name ends with the backup suffix. -/
def iniPass (fs : Fs) (pfx : Path) : Fs :=
  (filesUnder fs (drive_c pfx)).foldl iniStep fs

/-- Remove a directory and everything below it
(`QDir::removeRecursively`). -/
def eraseSubtree (fs : Fs) (d : Path) : Fs :=
  fs.filter (fun pe => !isUnder pe.1 d)

/-- Rename the subtree rooted at `src` to `dst` (every binding at or below
`src` is re-rooted at `dst`; others are kept). -/
def reRoot (fs : Fs) (src dst : Path) : Fs :=
  fs.map (fun pe =>
    if isUnder pe.1 src then (dst ++ pe.1.drop src.length, pe.2) else pe)

/-- `QDir().rename(src, dst)`: fails when something exists at `dst`. -/
def renameDirQ (fs : Fs) (src dst : Path) : Option Fs :=
  if (findE fs dst).isSome then none else some (reRoot fs src dst)

/-- One guarded rename of the source's early-return chain: when the backup
directory `b` exists, rename it over `live` (failing the whole call when
the rename fails); then continue with `k`. -/
def renameStep (fs : Fs) (b live : Path) (k : Fs → Fs × Bool) : Fs × Bool :=
  match (if isDirAt fs b then renameDirQ fs b live else some fs) with
  | none => (fs, false)
  | some fs2 => k fs2

/-- `restoreBackedUpSaves`: remove the live `Saves`/`saves` directories
(when they are directories — `QDir::exists`), then rename each existing
backup directory into place, stopping with `false` at the first failed
rename (the early returns are modelled by the `renameStep` continuation).
Result: (filesystem after, the source's boolean return). -/
def restSaves (fs : Fs) (liveU liveL bU bL : Path) : Fs × Bool :=
  let fs1 := if isDirAt fs liveU then eraseSubtree fs liveU else fs
  let fs2 := if isDirAt fs1 liveL then eraseSubtree fs1 liveL else fs1
  renameStep fs2 bU liveU (fun fs3 =>
    renameStep fs3 bL liveL (fun fs4 => (fs4, true)))

/-- The immediate subdirectories `QDirIterator(d, QDir::Dirs |
QDir::NoDotAndDotDot)` yields, in store order. -/
def childDirs (fs : Fs) (d : Path) : List Path :=
  fs.filterMap (fun pe =>
    match pe.2 with
    | .dirE => if pe.1.length = d.length + 1 && isUnder pe.1 d then some pe.1 else none
    | _ => none)

/-- One iteration of the saves restore loop: restore the game directory `g`
when a backup saves directory is present. -/
def savesStep (acc : Fs) (g : Path) : Fs :=
  if isDirAt acc (g ++ [bSavesU]) || isDirAt acc (g ++ [bSavesL]) then
    (restSaves acc (g ++ ["Saves"]) (g ++ ["saves"])
      (g ++ [bSavesU]) (g ++ [bSavesL])).1
  else acc

/-- The saves half of `restoreStaleBackups`: for each game directory under
`My Games` that currently has a backup saves directory, restore it. -/
def savesPass (fs : Fs) (pfx : Path) : Fs :=
  if isDirAt fs (myGamesPath pfx) then
    (childDirs fs (myGamesPath pfx)).foldl savesStep fs
  else fs

/-- `WinePrefix::restoreStaleBackups`: nothing when the prefix is invalid
(`drive_c` missing); otherwise the INI pass, then the saves pass (the
`My Games` iterator runs after the INI loop finished). -/
def restoreStaleBackups (fs : Fs) (pfx : Path) : Fs :=
  if isDirAt fs (drive_c pfx) then savesPass (iniPass fs pfx) pfx else fs

/-- A concrete prefix store with one INI backup sentinel (under `drive_c`)
and one game directory under `My Games` holding a backup saves directory. -/
def c8Pfx : Path := ["pfx"]

def c8P : Path := ["pfx", "drive_c", "game.ini.mo2linux_backup"]

def c8Live : Path := ["pfx", "drive_c", "game.ini"]

def c8G : Path := ["pfx", "drive_c", "users", "steamuser", "Documents", "My Games", "MyGame"]

def c8Fs : Fs :=
  [ (["pfx"], .dirE),
    (["pfx", "drive_c"], .dirE),
    (c8P, .fileE "inidata"),
    (["pfx", "drive_c", "users"], .dirE),
    (["pfx", "drive_c", "users", "steamuser"], .dirE),
    (["pfx", "drive_c", "users", "steamuser", "Documents"], .dirE),
    (["pfx", "drive_c", "users", "steamuser", "Documents", "My Games"], .dirE),
    (c8G, .dirE),
    (c8G ++ [bSavesU], .dirE),
    (c8G ++ [bSavesU, "slot1.sav"], .fileE "save1") ]

/-- A path the directory can be ensured at: empty, or already a directory
(`create_directories` succeeds there); a file or symlink blocks it. -/
def dirFreeAt (fs : Fs) (q : Path) : Bool :=
  match findE fs q with
  | none => true
  | some .dirE => true
  | some (.fileE _) => false
  | some (.linkE _) => false

/-! ## Concrete instances used by closed counterexample/bug theorems -/

/-- A base catalog with one game file. -/
def c1Base : List (Path × String) := [(["Skyrim.esm"], "/games/skyrim/Data/Skyrim.esm")]

/-- A non-empty extra-file map injecting a profile file into the mount. -/
def c1Extras : List (Path × String) := [(["plugins.txt"], "/home/user/profile/plugins.txt")]

/-- A filesystem holding a symlink the deployer did not create. -/
def c7Fs : Fs :=
  [(["opt", "game", "bin"], FsEntry.dirE),
   (["opt", "game", "bin", "d3d9.dll"], FsEntry.linkE ["old", "stale", "d3d9.dll"]),
   (["mods", "m1", "d3d9.dll"], FsEntry.fileE "payload")]

/-- A single file-level mapping whose destination lies outside the data
directory, at the path of the pre-existing foreign symlink. -/
def c7Mapping : List QMapping :=
  [⟨false, ["mods", "m1", "d3d9.dll"], ["opt", "game", "bin", "d3d9.dll"]⟩]

def c7DataDir : Path := ["opt", "game", "data"]

/-! ## Association-list and path lemmas -/

theorem findA_eraseA {α : Type} (m : List (Path × α)) (p r : Path) :
    findA (eraseA m p) r = if r = p then none else findA m r := by
  induction m with
  | nil => simp [eraseA, findA]
  | cons qv rest ih =>
    obtain ⟨q, v⟩ := qv
    by_cases hqp : q = p
    · subst hqp
      simp only [eraseA, eq_self_iff_true, if_true]
      rw [ih]
      by_cases hrq : r = q
      · simp [hrq]
      · have hqr : ¬q = r := fun h => hrq h.symm
        simp [findA, hrq, hqr]
    · simp only [eraseA, if_neg hqp, findA]
      by_cases hqr : q = r
      · have hrp : ¬r = p := fun h => hqp (hqr.trans h)
        simp [hqr, hrp]
      · rw [if_neg hqr, ih]
        by_cases hrp : r = p
        · simp [hrp]
        · simp [hrp, hqr]

theorem findA_setA {α : Type} (m : List (Path × α)) (p r : Path) (v : α) :
    findA (setA m p v) r = if r = p then some v else findA m r := by
  by_cases hrp : r = p
  · subst hrp
    simp [setA, findA]
  · have hpr : ¬p = r := fun h => hrp h.symm
    simp only [setA, findA, if_neg hpr, if_neg hrp]
    rw [findA_eraseA, if_neg hrp]

theorem isUnder_nil_right {α : Type} [DecidableEq α] (p : List α) :
    isUnder p [] = true := by
  cases p <;> rfl

theorem isUnder_refl {α : Type} [DecidableEq α] (p : List α) : isUnder p p = true := by
  induction p with
  | nil => rfl
  | cons a p ih => simp [isUnder, ih]

theorem isUnder_append_right {α : Type} [DecidableEq α] (p q : List α) :
    isUnder (p ++ q) p = true := by
  induction p with
  | nil => simp [isUnder_nil_right]
  | cons a p ih => simp [isUnder, ih]

theorem isUnder_iff {α : Type} [DecidableEq α] (p q : List α) :
    isUnder p q = true ↔ ∃ r, p = q ++ r := by
  induction q generalizing p with
  | nil =>
    simp only [isUnder_nil_right, List.nil_append, true_iff]
    exact ⟨p, rfl⟩
  | cons b q ih =>
    cases p with
    | nil =>
      simp only [isUnder, List.cons_append]
      constructor
      · intro h; exact absurd h (by simp)
      · rintro ⟨r, h⟩; exact absurd h (by simp)
    | cons a p =>
      by_cases hab : a = b
      · subst hab
        simp only [isUnder, ih, List.cons_append, List.cons.injEq, true_and,
          eq_self_iff_true, if_true]
      · simp only [isUnder, if_neg hab, List.cons_append, List.cons.injEq]
        constructor
        · intro h; exact absurd h (by simp)
        · rintro ⟨r, h1, h2⟩; exact absurd h1 hab

theorem isUnder_length {α : Type} [DecidableEq α] {p q : List α}
    (h : isUnder p q = true) : q.length ≤ p.length := by
  obtain ⟨r, rfl⟩ := (isUnder_iff p q).mp h
  simp

theorem isUnder_trans {α : Type} [DecidableEq α] {p q r : List α}
    (h1 : isUnder p q = true) (h2 : isUnder q r = true) : isUnder p r = true := by
  obtain ⟨s, rfl⟩ := (isUnder_iff p q).mp h1
  obtain ⟨t, rfl⟩ := (isUnder_iff q r).mp h2
  rw [isUnder_iff]
  exact ⟨t ++ s, by simp⟩

theorem isUnder_append_cancel {α : Type} [DecidableEq α] (g p q : List α) :
    isUnder (g ++ p) (g ++ q) = isUnder p q := by
  induction g with
  | nil => rfl
  | cons a g ih => simp [isUnder, ih]

theorem isUnder_sibling {α : Type} [DecidableEq α] (g : List α) {a b : α}
    (hab : a ≠ b) (s t : List α) :
    isUnder (g ++ a :: s) (g ++ b :: t) = false := by
  rw [isUnder_append_cancel]
  simp [isUnder, hab]

theorem mem_parentChain_length {q p : Path} (h : q ∈ parentChain p) :
    q.length < p.length := by
  induction p generalizing q with
  | nil => simp [parentChain] at h
  | cons s rest ih =>
    cases rest with
    | nil => simp [parentChain] at h
    | cons b bs =>
      simp only [parentChain, List.mem_cons, List.mem_map] at h
      rcases h with rfl | ⟨t, ht, rfl⟩
      · simp
      · have := @ih t (by simpa [parentChain] using ht)
        simpa using Nat.succ_lt_succ this

theorem not_mem_parentChain_self (p : Path) : p ∉ parentChain p :=
  fun h => absurd (mem_parentChain_length h) (lt_irrefl _)

theorem mem_parentChain_isUnder {q p : Path} (h : q ∈ parentChain p) :
    isUnder p q = true := by
  induction p generalizing q with
  | nil => simp [parentChain] at h
  | cons s rest ih =>
    cases rest with
    | nil => simp [parentChain] at h
    | cons b bs =>
      simp only [parentChain, List.mem_cons, List.mem_map] at h
      rcases h with rfl | ⟨t, ht, rfl⟩
      · simp [isUnder]
      · have := @ih t (by simpa [parentChain] using ht)
        simp [isUnder, this]

theorem mem_chainPaths {q p : Path} (h : q ∈ chainPaths p) :
    q ∈ parentChain p ∨ q = p := by
  cases p with
  | nil => simp [chainPaths] at h
  | cons s rest => simpa [chainPaths] using h

/-- A generic preservation principle for the folds in the sources. -/
theorem foldl_preserves {σ α : Type} (P : σ → Prop) (f : σ → α → σ) :
    ∀ (l : List α) (s : σ), (∀ s' a, a ∈ l → P s' → P (f s' a)) → P s →
      P (l.foldl f s)
  | [], _, _, hs => hs
  | a :: l, s, hstep, hs =>
    foldl_preserves P f l (f s a) (fun s' b hb => hstep s' b (List.mem_cons_of_mem a hb))
      (hstep s a (List.mem_cons_self a l) hs)

/-! ## `mkdirsGo` lemmas -/

theorem findE_setA (fs : Fs) (p r : Path) (v : FsEntry) :
    findE (setA fs p v) r = if r = p then some v else findE fs r :=
  findA_setA fs p r v

theorem findE_eraseA (fs : Fs) (p r : Path) :
    findE (eraseA fs p) r = if r = p then none else findE fs r :=
  findA_eraseA fs p r

theorem mkdirsGo_frame {fs : Fs} {r : Path} {ent : FsEntry} (qs : List Path)
    (h : findE fs r = some ent) : findE (mkdirsGo fs qs) r = some ent := by
  induction qs generalizing fs with
  | nil => simpa [mkdirsGo] using h
  | cons q qs ih =>
    cases hq : findE fs q with
    | none =>
      have hrq : r ≠ q := fun e => by rw [e, hq] at h; exact Option.noConfusion h
      simp only [mkdirsGo, hq]
      apply ih
      rw [findE_setA, if_neg hrq]
      exact h
    | some e =>
      cases e with
      | dirE => simp only [mkdirsGo, hq]; exact ih h
      | fileE c => simpa [mkdirsGo, hq] using h
      | linkE t => simpa [mkdirsGo, hq] using h

theorem mkdirsGo_outside {fs : Fs} {r : Path} (qs : List Path)
    (h : r ∉ qs) : findE (mkdirsGo fs qs) r = findE fs r := by
  induction qs generalizing fs with
  | nil => simp [mkdirsGo]
  | cons q qs ih =>
    have hrq : r ≠ q := fun e => h (e ▸ List.mem_cons_self q qs)
    have hrest : r ∉ qs := fun e => h (List.mem_cons_of_mem q e)
    cases hq : findE fs q with
    | none =>
      simp only [mkdirsGo, hq]
      rw [ih hrest, findE_setA, if_neg hrq]
    | some e =>
      cases e with
      | dirE => simp only [mkdirsGo, hq]; exact ih hrest
      | fileE c => simp [mkdirsGo, hq]
      | linkE t => simp [mkdirsGo, hq]

theorem mkdirsGo_keeps_dirFree {fs : Fs} {r : Path} (qs : List Path)
    (h : dirFreeAt fs r = true) : dirFreeAt (mkdirsGo fs qs) r = true := by
  induction qs generalizing fs with
  | nil => simpa [mkdirsGo] using h
  | cons q qs ih =>
    cases hq : findE fs q with
    | none =>
      simp only [mkdirsGo, hq]
      refine ih ?_
      by_cases hrq : r = q
      · simp [dirFreeAt, findE_setA, hrq]
      · simpa [dirFreeAt, findE_setA, hrq] using h
    | some e =>
      cases e with
      | dirE => simp only [mkdirsGo, hq]; exact ih h
      | fileE c => simpa [mkdirsGo, hq] using h
      | linkE t => simpa [mkdirsGo, hq] using h

theorem mkdirsGo_link_back {fs : Fs} {r t : Path} (qs : List Path)
    (h : findE (mkdirsGo fs qs) r = some (.linkE t)) :
    findE fs r = some (.linkE t) := by
  induction qs generalizing fs with
  | nil => simpa [mkdirsGo] using h
  | cons q qs ih =>
    cases hq : findE fs q with
    | none =>
      simp only [mkdirsGo, hq] at h
      have h2 := ih h
      rw [findE_setA] at h2
      by_cases hrq : r = q
      · simp [hrq] at h2
      · rwa [if_neg hrq] at h2
    | some e =>
      cases e with
      | dirE => simp only [mkdirsGo, hq] at h; exact ih h
      | fileE c => simpa [mkdirsGo, hq] using h
      | linkE t2 => simpa [mkdirsGo, hq] using h

theorem mkdirsGo_makes_dirs {fs : Fs} (qs : List Path)
    (h : ∀ q ∈ qs, dirFreeAt fs q = true) :
    ∀ q ∈ qs, findE (mkdirsGo fs qs) q = some .dirE := by
  induction qs generalizing fs with
  | nil => intro q hq; simp at hq
  | cons q0 qs ih =>
    have h0 : dirFreeAt fs q0 = true := h q0 (List.mem_cons_self _ _)
    intro q hq
    cases hq2 : findE fs q0 with
    | none =>
      simp only [mkdirsGo, hq2]
      rcases List.mem_cons.mp hq with rfl | hmem
      · exact mkdirsGo_frame qs (by rw [findE_setA, if_pos rfl])
      · refine ih (fun r hr => ?_) q hmem
        by_cases hrq : r = q0
        · simp [dirFreeAt, findE_setA, hrq]
        · simpa [dirFreeAt, findE_setA, hrq] using h r (List.mem_cons_of_mem _ hr)
    | some e =>
      cases e with
      | dirE =>
        simp only [mkdirsGo, hq2]
        rcases List.mem_cons.mp hq with rfl | hmem
        · exact mkdirsGo_frame qs hq2
        · exact ih (fun r hr => h r (List.mem_cons_of_mem _ hr)) q hmem
      | fileE c => simp [dirFreeAt, hq2] at h0
      | linkE t => simp [dirFreeAt, hq2] at h0

/-! ## C10 — crash-cleanup buffer -/

theorem takeWhileNz_append (l rest : List Nat) (h : ∀ b ∈ l, b ≠ 0) :
    (l ++ 0 :: rest).takeWhile (fun x => x != 0) = l := by
  induction l with
  | nil => simp
  | cons a l ih =>
    have ha : a ≠ 0 := h a (List.mem_cons_self _ _)
    simp only [List.cons_append, List.takeWhile_cons]
    rw [if_pos (by simpa using ha), ih (fun b hb => h b (List.mem_cons_of_mem _ hb))]

theorem replicate_zero_append (k : Nat) :
    ∃ rest : List Nat, List.replicate k 0 ++ [0] = 0 :: rest := by
  cases k with
  | zero => exact ⟨[], rfl⟩
  | succ n => exact ⟨List.replicate n 0 ++ [0], by simp [List.replicate_succ]⟩

/-- C10: the crash-cleanup mount-point buffer round-trips: after a store of
a non-empty NUL-free string of at most 4095 bytes the getter returns that
string; after a store of the null pointer or of the empty string the getter
returns null; for any stored string the buffer keeps exactly its first 4095
bytes followed by a NUL, and every write leaves the buffer at its fixed
4096-byte size. -/
theorem crash_cleanup_buffer_roundtrip (buf p q : List Nat)
    (hbuf : buf.length = 4096)
    (hlen : p.length ≤ 4095) (hnz : ∀ b ∈ p, b ≠ 0) (hne : p ≠ [])
    (hqnz : ∀ b ∈ q, b ≠ 0) :
    getFuseMountPointForCrashCleanup (setFuseMountPointForCrashCleanup (some p) buf) = some p
    ∧ getFuseMountPointForCrashCleanup (setFuseMountPointForCrashCleanup none buf) = none
    ∧ getFuseMountPointForCrashCleanup (setFuseMountPointForCrashCleanup (some []) buf) = none
    ∧ storedCString (setFuseMountPointForCrashCleanup (some q) buf) = q.take 4095
    ∧ (setFuseMountPointForCrashCleanup (some q) buf).length = 4096
    ∧ (setFuseMountPointForCrashCleanup none buf).length = 4096 := by
  have hsize : fuseBufSize - 1 = 4095 := rfl
  refine ⟨?_, ?_, ?_, ?_, ?_, ?_⟩
  · obtain ⟨a, tl, rfl⟩ : ∃ a tl, p = a :: tl := by
      cases p with
      | nil => exact absurd rfl hne
      | cons a tl => exact ⟨a, tl, rfl⟩
    have ha : a ≠ 0 := hnz a (List.mem_cons_self _ _)
    obtain ⟨rest, hrest⟩ :=
      replicate_zero_append (fuseBufSize - 1 - min (a :: tl).length (fuseBufSize - 1))
    simp only [setFuseMountPointForCrashCleanup]
    rw [List.take_of_length_le (by simpa [hsize] using hlen), List.append_assoc, hrest]
    simp only [getFuseMountPointForCrashCleanup, List.cons_append, if_neg ha]
    rw [show a :: (tl ++ 0 :: rest) = (a :: tl) ++ 0 :: rest from rfl,
      takeWhileNz_append _ _ hnz]
  · simp [setFuseMountPointForCrashCleanup, getFuseMountPointForCrashCleanup]
  · obtain ⟨rest, hrest⟩ := replicate_zero_append (fuseBufSize - 1 - min 0 (fuseBufSize - 1))
    simp only [setFuseMountPointForCrashCleanup, List.take_nil, List.length_nil,
      List.nil_append]
    rw [hrest]
    simp [getFuseMountPointForCrashCleanup]
  · obtain ⟨rest, hrest⟩ :=
      replicate_zero_append (fuseBufSize - 1 - min q.length (fuseBufSize - 1))
    simp only [setFuseMountPointForCrashCleanup, storedCString]
    rw [List.append_assoc, hrest, takeWhileNz_append _ _
      (fun b hb => hqnz b (List.take_subset _ _ hb)), hsize]
  · simp only [setFuseMountPointForCrashCleanup]
    simp [List.length_append, List.length_take, fuseBufSize]
    omega
  · simp only [setFuseMountPointForCrashCleanup]
    simp [hbuf]

/-- C10 witness: the round-trip at a concrete buffer and concrete strings. -/
theorem crash_cleanup_buffer_roundtrip_witness :
    getFuseMountPointForCrashCleanup (setFuseMountPointForCrashCleanup (some [104]) (List.replicate 4096 0)) = some [104]
    ∧ getFuseMountPointForCrashCleanup (setFuseMountPointForCrashCleanup none (List.replicate 4096 0)) = none
    ∧ getFuseMountPointForCrashCleanup (setFuseMountPointForCrashCleanup (some []) (List.replicate 4096 0)) = none
    ∧ storedCString (setFuseMountPointForCrashCleanup (some [7, 8]) (List.replicate 4096 0)) = [7, 8].take 4095
    ∧ (setFuseMountPointForCrashCleanup (some [7, 8]) (List.replicate 4096 0)).length = 4096
    ∧ (setFuseMountPointForCrashCleanup none (List.replicate 4096 0)).length = 4096 :=
  crash_cleanup_buffer_roundtrip (List.replicate 4096 0) [104] [7, 8]
    (by rw [List.length_replicate]) (by norm_num) (by decide) (by decide) (by decide)

/-! ## C6 — helper command loop -/

/-- C6 counterexample: the helper reads two command lines (an unrecognized
one and `quit`) but emits a single response line, not one per line. -/
theorem helper_unknown_line_gets_no_response :
    helperResponses ["launch", "quit"] = ["ok"]
    ∧ (["launch", "quit"] : List String).length = 2
    ∧ (helperResponses ["launch", "quit"]).length ≠ (["launch", "quit"] : List String).length := by
  refine ⟨by decide, by decide, by decide⟩

/-- C6 (amended): the helper's stdout over a run is exactly one `ok` per
`rebuild`/`flush` command read before the loop stops (at `quit` or at end of
input), plus one final `ok` from the shutdown path; unrecognized command
lines produce no response, and the command loop itself never emits an
`error:` line (those appear only during startup, before `mounted`). -/
theorem helper_loop_ok_per_ack (lines : List String) :
    helperResponses lines = List.replicate (helperAckCount lines + 1) "ok" := by
  induction lines with
  | nil => rfl
  | cons line rest ih =>
    by_cases h1 : line = "rebuild"
    · simp [helperResponses, helperAckCount, h1, ih, List.replicate_succ]
    · by_cases h2 : line = "flush"
      · simp [helperResponses, helperAckCount, h1, h2, ih, List.replicate_succ]
      · by_cases h3 : line = "quit"
        · simp [helperResponses, helperAckCount, h1, h2, h3]
        · simp [helperResponses, helperAckCount, h1, h2, h3, ih]

/-! ## C4 — stale-mount detection and cleanup -/

/-- C4 counterexample: the target is stale (listed in the mount table),
every unmount command fails, and the mount flow still proceeds to the
session mount attempt — the claim's fail-fast does not happen. -/
theorem stale_mount_no_fail_fast :
    isStaleOrMounted ⟨true, none⟩ = true
    ∧ mountReachesSessionMount true ⟨true, none⟩ (fun _ => false)
      = ([.fusermount3_u, .fusermount_u, .umount_plain, .umount_lazy,
          .fusermount3_uz, .fusermount_uz], true) := by
  exact ⟨rfl, rfl⟩

/-- C4 (amended): a stale mount is detected exactly when the mount table
lists the target or a stat fails with ENOTCONN; when not detected no
unmount command runs; when detected, graceful unmount runs first
(fusermount3 -u, then fusermount -u on failure), the force/lazy escalation
(umount, umount -l, fusermount3 -uz, fusermount -uz) runs exactly when both
graceful attempts fail; and whatever the cleanup outcome, the mount flow
proceeds to the session mount attempt (failing there if the target is still
busy) rather than failing fast. -/
theorem stale_mount_cleanup_spec (pr : MountProbe) (ok : UnmountCmd → Bool) :
    (isStaleOrMounted pr = true ↔ pr.inMountTable = true ∨ pr.statErrno = some ENOTCONN)
    ∧ (isStaleOrMounted pr = false → tryCleanupStaleMount pr ok = [])
    ∧ (isStaleOrMounted pr = true → tryCleanupStaleMount pr ok = doUnmount ok)
    ∧ (doUnmount ok).head? = some .fusermount3_u
    ∧ (ok .fusermount3_u = true → doUnmount ok = [.fusermount3_u])
    ∧ (ok .fusermount3_u = false → ok .fusermount_u = true →
        doUnmount ok = [.fusermount3_u, .fusermount_u])
    ∧ (ok .fusermount3_u = false → ok .fusermount_u = false →
        doUnmount ok = [.fusermount3_u, .fusermount_u, .umount_plain, .umount_lazy,
          .fusermount3_uz, .fusermount_uz])
    ∧ (mountReachesSessionMount true pr ok).2 = true := by
  refine ⟨?_, ?_, ?_, ?_, ?_, ?_, ?_, ?_⟩
  · cases he : pr.statErrno with
    | none => simp [isStaleOrMounted, he]
    | some e =>
      simp only [isStaleOrMounted, he, Bool.or_eq_true, beq_iff_eq,
        Option.some.injEq]
  · intro h; simp [tryCleanupStaleMount, h]
  · intro h; simp [tryCleanupStaleMount, h]
  · by_cases h1 : ok .fusermount3_u = true
    · simp [doUnmount, h1]
    · by_cases h2 : ok .fusermount_u = true
      · simp [doUnmount, h1, h2]
      · simp [doUnmount, h1, h2]
  · intro h1; simp [doUnmount, h1]
  · intro h1 h2; simp [doUnmount, h1, h2]
  · intro h1 h2; simp [doUnmount, h1, h2]
  · rfl

/-- C4 witness: the amended statement at a concrete probe and oracle (stale
via ENOTCONN, graceful unmount succeeding at the first command). -/
theorem stale_mount_cleanup_spec_witness :
    (isStaleOrMounted ⟨false, some 107⟩ = true ↔
      (⟨false, some 107⟩ : MountProbe).inMountTable = true ∨
        (⟨false, some 107⟩ : MountProbe).statErrno = some ENOTCONN)
    ∧ (isStaleOrMounted ⟨false, some 107⟩ = false →
        tryCleanupStaleMount ⟨false, some 107⟩ (fun _ => true) = [])
    ∧ (isStaleOrMounted ⟨false, some 107⟩ = true →
        tryCleanupStaleMount ⟨false, some 107⟩ (fun _ => true) = doUnmount (fun _ => true))
    ∧ (doUnmount (fun _ => true)).head? = some .fusermount3_u
    ∧ ((fun _ => true : UnmountCmd → Bool) .fusermount3_u = true →
        doUnmount (fun _ => true) = [.fusermount3_u])
    ∧ ((fun _ => true : UnmountCmd → Bool) .fusermount3_u = false →
        (fun _ => true : UnmountCmd → Bool) .fusermount_u = true →
        doUnmount (fun _ => true) = [.fusermount3_u, .fusermount_u])
    ∧ ((fun _ => true : UnmountCmd → Bool) .fusermount3_u = false →
        (fun _ => true : UnmountCmd → Bool) .fusermount_u = false →
        doUnmount (fun _ => true) = [.fusermount3_u, .fusermount_u, .umount_plain,
          .umount_lazy, .fusermount3_uz, .fusermount_uz])
    ∧ (mountReachesSessionMount true ⟨false, some 107⟩ (fun _ => true)).2 = true :=
  stale_mount_cleanup_spec ⟨false, some 107⟩ (fun _ => true)

/-! ## C3 — flush idempotence -/

/-- C3: promotion is idempotent: a `flushStaging` run leaves the staging
directory absent, so a second run (staging absent, or recreated empty)
leaves the overwrite directory exactly as the first run did; in particular
`flushStaging` on a non-existent staging directory changes nothing. -/
theorem flushStaging_idempotent (ro : Path → Bool) (st : Option (List StEntry)) (ow : Fs) :
    flushStagingRun ro none ow = (none, ow)
    ∧ flushStagingRun ro (some []) ow = (none, ow)
    ∧ (flushStagingRun ro st ow).1 = none
    ∧ flushStagingRun ro ((flushStagingRun ro st ow).1) ((flushStagingRun ro st ow).2)
      = flushStagingRun ro st ow := by
  refine ⟨rfl, rfl, ?_, ?_⟩
  · cases st <;> rfl
  · cases st <;> rfl

/-! ## C2 — staging promotion moves every regular file -/

theorem isDirAt_congr {fs fs' : Fs} {p p' : Path}
    (h : findE fs p = findE fs' p') : isDirAt fs p = isDirAt fs' p' := by
  unfold isDirAt
  rw [h]

theorem dirFreeAt_congr {fs fs' : Fs} {p p' : Path}
    (h : findE fs p = findE fs' p') : dirFreeAt fs p = dirFreeAt fs' p' := by
  unfold dirFreeAt
  rw [h]

theorem findE_setA_ne (fs : Fs) {p r : Path} (v : FsEntry) (h : r ≠ p) :
    findE (setA fs p v) r = findE fs r := by
  rw [findE_setA, if_neg h]

/-- One `flushStep` keeps a file already moved to `e.rel` (and its parent
directories) in place, provided the step's entry lives at a different
relative path and — when it is a regular file — not at one of the parent
paths. -/
theorem flushStep_keeps (ro : Path → Bool) (e b : StEntry) (fs : Fs)
    (hne : b.rel ≠ e.rel)
    (hnotanc : b.kind = .regK → b.rel ∉ parentChain e.rel)
    (h1 : findE fs e.rel = some (.fileE e.content))
    (h2 : ∀ q ∈ parentChain e.rel, findE fs q = some .dirE) :
    findE (flushStep ro fs b) e.rel = some (.fileE e.content)
    ∧ ∀ q ∈ parentChain e.rel, findE (flushStep ro fs b) q = some .dirE := by
  cases hk : b.kind with
  | dirK =>
    simp only [flushStep, hk]
    exact ⟨mkdirsGo_frame _ h1, fun q hq => mkdirsGo_frame _ (h2 q hq)⟩
  | otherK =>
    simp only [flushStep, hk]
    exact ⟨h1, h2⟩
  | regK =>
    simp only [flushStep, hk, moveStagedFile, ite_self]
    have hf1 : findE (mkdirsGo fs (parentChain b.rel)) e.rel = some (.fileE e.content) :=
      mkdirsGo_frame _ h1
    have hf2 : ∀ q ∈ parentChain e.rel,
        findE (mkdirsGo fs (parentChain b.rel)) q = some .dirE :=
      fun q hq => mkdirsGo_frame _ (h2 q hq)
    split
    · refine ⟨?_, fun q hq => ?_⟩
      · rw [findE_setA_ne _ _ (fun h => hne h.symm)]
        exact hf1
      · have hqb : q ≠ b.rel := fun h => (hnotanc hk) (h ▸ hq)
        rw [findE_setA_ne _ _ hqb]
        exact hf2 q hq
    · exact ⟨hf1, hf2⟩

/-- One `flushStep` preserves the pre-conditions of the target entry `e`:
its parent chain stays creatable and its own path stays non-directory. -/
theorem flushStep_inv (ro : Path → Bool) (e b : StEntry) (fs : Fs)
    (hne : b.rel ≠ e.rel)
    (hbnotancE : b.kind = .regK → b.rel ∉ parentChain e.rel)
    (hEnotancB : e.rel ∉ parentChain b.rel)
    (hanc : ∀ q ∈ parentChain e.rel, dirFreeAt fs q = true)
    (hndir : isDirAt fs e.rel = false) :
    (∀ q ∈ parentChain e.rel, dirFreeAt (flushStep ro fs b) q = true)
    ∧ isDirAt (flushStep ro fs b) e.rel = false := by
  cases hk : b.kind with
  | dirK =>
    simp only [flushStep, hk]
    refine ⟨fun q hq => mkdirsGo_keeps_dirFree _ (hanc q hq), ?_⟩
    have hout : e.rel ∉ chainPaths b.rel := by
      intro hc
      rcases mem_chainPaths hc with hc | hc
      · exact hEnotancB hc
      · exact hne hc.symm
    rw [isDirAt_congr (mkdirsGo_outside _ hout)]
    exact hndir
  | otherK =>
    simp only [flushStep, hk]
    exact ⟨hanc, hndir⟩
  | regK =>
    simp only [flushStep, hk, moveStagedFile, ite_self]
    have hanc1 : ∀ q ∈ parentChain e.rel,
        dirFreeAt (mkdirsGo fs (parentChain b.rel)) q = true :=
      fun q hq => mkdirsGo_keeps_dirFree _ (hanc q hq)
    have hndir1 : isDirAt (mkdirsGo fs (parentChain b.rel)) e.rel = false := by
      rw [isDirAt_congr (mkdirsGo_outside _ hEnotancB)]
      exact hndir
    split
    · refine ⟨fun q hq => ?_, ?_⟩
      · have hqb : q ≠ b.rel := fun h => (hbnotancE hk) (h ▸ hq)
        rw [dirFreeAt_congr (findE_setA_ne _ _ hqb)]
        exact hanc1 q hq
      · rw [isDirAt_congr (findE_setA_ne _ _ (fun h => hne h.symm))]
        exact hndir1
    · exact ⟨hanc1, hndir1⟩

/-- Folding the promotion loop over a well-formed staging listing puts
every regular entry's content at its relative path in the overwrite
directory, with its parent directories in place. -/
theorem flushFold_puts (ro : Path → Bool) (e : StEntry) (he_reg : e.kind = .regK) :
    ∀ (l : List StEntry) (fs : Fs),
      e ∈ l →
      List.Pairwise (fun a b => a.rel ≠ b.rel) l →
      (∀ e1 ∈ l, ∀ e2 ∈ l, e1.rel ∈ parentChain e2.rel → e1.kind = .dirK) →
      (∀ q ∈ parentChain e.rel, dirFreeAt fs q = true) →
      isDirAt fs e.rel = false →
      findE (l.foldl (flushStep ro) fs) e.rel = some (.fileE e.content)
      ∧ ∀ q ∈ parentChain e.rel, findE (l.foldl (flushStep ro) fs) q = some .dirE := by
  intro l
  induction l with
  | nil => intro fs he; simp at he
  | cons b l ih =>
    intro fs he hnd hwf hanc hndir
    obtain ⟨hhead, htail⟩ := List.pairwise_cons.mp hnd
    rcases List.mem_cons.mp he with rfl | hmem
    · -- the loop reaches `e`: the move lands, then later steps keep it
      simp only [List.foldl_cons, flushStep, he_reg, moveStagedFile, ite_self]
      have hdirs : ∀ q ∈ parentChain e.rel,
          findE (mkdirsGo fs (parentChain e.rel)) q = some .dirE :=
        mkdirsGo_makes_dirs _ hanc
      have hall : ((parentChain e.rel).all
          (fun q => isDirAt (mkdirsGo fs (parentChain e.rel)) q)
          && !isDirAt (mkdirsGo fs (parentChain e.rel)) e.rel) = true := by
        have h1 : (parentChain e.rel).all
            (fun q => isDirAt (mkdirsGo fs (parentChain e.rel)) q) = true := by
          rw [List.all_eq_true]
          intro q hq
          simp [isDirAt, hdirs q hq]
        have h2 : isDirAt (mkdirsGo fs (parentChain e.rel)) e.rel = false := by
          rw [isDirAt_congr (mkdirsGo_outside _ (not_mem_parentChain_self e.rel))]
          exact hndir
        rw [h1, h2]
        rfl
      rw [if_pos hall]
      have hfile : findE (setA (mkdirsGo fs (parentChain e.rel)) e.rel
          (.fileE e.content)) e.rel = some (.fileE e.content) := by
        rw [findE_setA, if_pos rfl]
      have hdirs2 : ∀ q ∈ parentChain e.rel,
          findE (setA (mkdirsGo fs (parentChain e.rel)) e.rel (.fileE e.content)) q
            = some .dirE := by
        intro q hq
        have hq' : q ≠ e.rel := fun h => not_mem_parentChain_self e.rel (h ▸ hq)
        rw [findE_setA_ne _ _ hq']
        exact hdirs q hq
      refine foldl_preserves
        (fun s => findE s e.rel = some (.fileE e.content)
          ∧ ∀ q ∈ parentChain e.rel, findE s q = some .dirE)
        (flushStep ro) l _ (fun s b' hb' hP => ?_) ⟨hfile, hdirs2⟩
      have hne : b'.rel ≠ e.rel := fun h => (hhead b' hb') h.symm
      have hnotanc : b'.kind = .regK → b'.rel ∉ parentChain e.rel := by
        intro hk hmem2
        have := hwf b' (List.mem_cons_of_mem _ hb') e (List.mem_cons_self _ _) hmem2
        rw [hk] at this
        exact StKind.noConfusion this
      exact flushStep_keeps ro e b' s hne hnotanc hP.1 hP.2
    · -- a step before `e`: the invariant is preserved
      simp only [List.foldl_cons]
      have hne : b.rel ≠ e.rel := hhead e hmem
      have hbnotancE : b.kind = .regK → b.rel ∉ parentChain e.rel := by
        intro hk hmem2
        have := hwf b (List.mem_cons_self _ _) e (List.mem_cons_of_mem _ hmem) hmem2
        rw [hk] at this
        exact StKind.noConfusion this
      have hEnotancB : e.rel ∉ parentChain b.rel := by
        intro hmem2
        have := hwf e (List.mem_cons_of_mem _ hmem) b (List.mem_cons_self _ _) hmem2
        rw [he_reg] at this
        exact StKind.noConfusion this
      obtain ⟨hanc', hndir'⟩ :=
        flushStep_inv ro e b fs hne hbnotancE hEnotancB hanc hndir
      exact ih (flushStep ro fs b) hmem htail
        (fun e1 h1 e2 h2 => hwf e1 (List.mem_cons_of_mem _ h1) e2 (List.mem_cons_of_mem _ h2))
        hanc' hndir'

/-- C2: `flushStaging` moves every regular file found under the staging
directory into the overwrite directory at the same relative path (whether
`fs::rename` succeeds or the copy-then-delete fallback runs — the
`renameOk` oracle is universally quantified), creating the intermediate
directories as needed, and removes the staging directory when it finishes;
on a non-existent staging directory it does nothing.  The listing
hypotheses say the staging walk is a real directory listing (distinct
paths, ancestors of entries are directories) and the overwrite directory
does not block the move with a conflicting directory/non-directory. -/
theorem flushStaging_moves_all_files (ro : Path → Bool) (entries : List StEntry)
    (ow : Fs) (e : StEntry)
    (hmem : e ∈ entries) (hreg : e.kind = .regK)
    (hnd : List.Pairwise (fun a b => a.rel ≠ b.rel) entries)
    (hwf : ∀ e1 ∈ entries, ∀ e2 ∈ entries, e1.rel ∈ parentChain e2.rel → e1.kind = .dirK)
    (hanc : ∀ q ∈ parentChain e.rel, dirFreeAt ow q = true)
    (hndir : isDirAt ow e.rel = false) :
    findE (flushStagingRun ro (some entries) ow).2 e.rel = some (.fileE e.content)
    ∧ (∀ q ∈ parentChain e.rel,
        findE (flushStagingRun ro (some entries) ow).2 q = some .dirE)
    ∧ (flushStagingRun ro (some entries) ow).1 = none
    ∧ flushStagingRun ro none ow = (none, ow) := by
  have h := flushFold_puts ro e hreg entries ow hmem hnd hwf hanc hndir
  exact ⟨h.1, h.2, rfl, rfl⟩

/-- C2 witness: a staging listing with one subdirectory and one regular
file in it, promoted into an empty overwrite directory. -/
theorem flushStaging_moves_all_files_witness :
    findE (flushStagingRun (fun _ => true)
        (some [⟨["sub"], .dirK, ""⟩, ⟨["sub", "b.txt"], .regK, "B"⟩]) []).2
        ["sub", "b.txt"] = some (.fileE "B")
    ∧ (∀ q ∈ parentChain (["sub", "b.txt"] : Path),
        findE (flushStagingRun (fun _ => true)
          (some [⟨["sub"], .dirK, ""⟩, ⟨["sub", "b.txt"], .regK, "B"⟩]) []).2 q
          = some .dirE)
    ∧ (flushStagingRun (fun _ => true)
        (some [⟨["sub"], .dirK, ""⟩, ⟨["sub", "b.txt"], .regK, "B"⟩]) []).1 = none
    ∧ flushStagingRun (fun _ => true) none [] = (none, []) :=
  flushStaging_moves_all_files (fun _ => true)
    [⟨["sub"], .dirK, ""⟩, ⟨["sub", "b.txt"], .regK, "B"⟩] []
    ⟨["sub", "b.txt"], .regK, "B"⟩ (by decide) rfl (by decide) (by decide)
    (by decide) (by decide)

/-! ## C9 — `buildModsFromMapping` characterization -/

theorem buildMods_go (dataDir overwriteDir : Path) (mapping : List QMapping) :
    ∀ (mods : List (String × Path)) (seen : List Path),
      (mapping.foldl (buildModsStep dataDir overwriteDir) (mods, seen)).1
        = mods ++ (dedupBySource (mapping.filter (keptMapping dataDir overwriteDir)) seen).map
            (fun m => (m.source.getLastD "", m.source)) := by
  induction mapping with
  | nil => intro mods seen; simp [dedupBySource]
  | cons m rest ih =>
    intro mods seen
    simp only [List.foldl_cons, List.filter_cons]
    cases hdir : m.isDirectory with
    | false =>
      simp only [buildModsStep, hdir, if_pos rfl, keptMapping, Bool.false_and,
        Bool.false_eq_true, if_neg (Bool.false_ne_true)]
      exact ih mods seen
    | true =>
      cases hdst : isUnder m.destination dataDir with
      | false =>
        simp only [buildModsStep, hdir, hdst, keptMapping, Bool.true_and,
          Bool.false_and, Bool.and_false]
        simp only [if_neg (by simp : ¬(true = false)), if_pos rfl,
          if_neg (Bool.false_ne_true)]
        exact ih mods seen
      | true =>
        cases hsrc : isUnder m.source overwriteDir with
        | true =>
          simp only [buildModsStep, hdir, hdst, hsrc, keptMapping, Bool.true_and,
            Bool.not_true, Bool.and_false]
          simp only [if_neg (by simp : ¬(true = false)),
            if_neg (by simp : ¬((false : Bool) = true)), if_pos rfl,
            if_neg (Bool.false_ne_true)]
          exact ih mods seen
        | false =>
          simp only [buildModsStep, hdir, hdst, hsrc, keptMapping, Bool.true_and,
            Bool.not_false, Bool.and_true]
          simp only [if_neg (by simp : ¬(true = false)),
            if_neg (by simp : ¬((false : Bool) = true)), if_pos rfl]
          by_cases hseen : m.source ∈ seen
          · simp only [if_pos hseen, dedupBySource, if_pos hseen]
            exact ih mods seen
          · simp only [if_neg hseen, dedupBySource, if_neg hseen, List.map_cons]
            rw [ih (mods ++ [(m.source.getLastD "", m.source)]) (m.source :: seen)]
            simp

/-- C9: `buildModsFromMapping` returns exactly the directory-level mappings
whose destination is the data directory or lies under it, minus those whose
source is the overwrite directory or lies under it; duplicate sources are
dropped keeping the first occurrence, order is preserved, and each mod is
named by the basename of its source. -/
theorem buildMods_characterization (mapping : List QMapping) (dataDir overwriteDir : Path) :
    buildModsFromMapping mapping dataDir overwriteDir
      = specModsFromMapping mapping dataDir overwriteDir := by
  have h := buildMods_go dataDir overwriteDir mapping [] []
  simpa [buildModsFromMapping, specModsFromMapping] using h

/-! ## C5 — `NxmLink::parse` -/

theorem parts_shape {l : List String} (h1 : l.length = 4)
    (h2 : l.getD 0 "" = "mods") (h3 : l.getD 2 "" = "files") :
    ∃ m f, l = ["mods", m, "files", f] := by
  rcases l with _ | ⟨a, _ | ⟨b, _ | ⟨c, _ | ⟨d, rest⟩⟩⟩⟩
  · simp at h1
  · simp at h1
  · simp at h1
  · simp at h1
  · have hrest : rest = [] := by
      simp only [List.length_cons] at h1
      exact List.eq_nil_of_length_eq_zero (by omega)
    subst hrest
    refine ⟨b, d, ?_⟩
    simp at h2 h3
    rw [h2, h3]

/-- C5: `NxmLink::parse` accepts exactly the URLs with scheme `nxm`
(`QUrl` normalizes the scheme's case), a non-empty (trimmed) host, a path
whose non-empty segments are exactly `mods/<mod_id>/files/<file_id>` with
both ids parsing as unsigned 64-bit integers without overflow, a non-empty
`key` query item, and an `expires` query item parsing as an unsigned 64-bit
integer without overflow; `user_id` does not constrain acceptance. -/
theorem nxm_parse_accepts_iff (u : NxmUrl) :
    (NxmLink.parse u).isSome = true ↔
      u.isValid = true ∧ toLowerStr u.scheme = "nxm" ∧ u.host.trim ≠ "" ∧
      (∃ m f : String, splitSkipEmpty u.path = ["mods", m, "files", f] ∧
        (qtToULongLong m).isSome = true ∧ (qtToULongLong f).isSome = true) ∧
      queryItemValue u.query "key" ≠ "" ∧
      (qtToULongLong (queryItemValue u.query "expires")).isSome = true := by
  by_cases h1 : u.isValid = false ∨ toLowerStr u.scheme ≠ "nxm"
  · rw [NxmLink.parse, if_pos h1]
    simp only [Option.isSome_none, Bool.false_eq_true, false_iff]
    rintro ⟨hv, hs, -⟩
    rcases h1 with h1 | h1
    · rw [hv] at h1; exact Bool.noConfusion h1
    · exact h1 hs
  · push_neg at h1
    obtain ⟨hv, hs⟩ := h1
    have hv' : u.isValid = true := by revert hv; cases u.isValid <;> simp
    rw [NxmLink.parse, if_neg (by rw [hv', hs]; simp)]
    by_cases h2 : u.host.trim = ""
    · rw [if_pos h2]
      simp only [Option.isSome_none, Bool.false_eq_true, false_iff]
      rintro ⟨-, -, hh, -⟩
      exact hh h2
    · rw [if_neg h2]
      by_cases h3 : (splitSkipEmpty u.path).length ≠ 4 ∨
          (splitSkipEmpty u.path).getD 0 "" ≠ "mods" ∨
          (splitSkipEmpty u.path).getD 2 "" ≠ "files"
      · rw [if_pos h3]
        simp only [Option.isSome_none, Bool.false_eq_true, false_iff]
        rintro ⟨-, -, -, ⟨m, f, hparts, -, -⟩, -, -⟩
        rcases h3 with h3 | h3 | h3 <;> rw [hparts] at h3 <;> simp at h3
      · rw [if_neg h3]
        push_neg at h3
        obtain ⟨hlen, h0, htwo⟩ := h3
        obtain ⟨m, f, hparts⟩ := parts_shape hlen h0 htwo
        have hm1 : (splitSkipEmpty u.path).getD 1 "" = m := by rw [hparts]; rfl
        have hf3 : (splitSkipEmpty u.path).getD 3 "" = f := by rw [hparts]; rfl
        rw [hm1, hf3]
        cases hmv : qtToULongLong m with
        | none =>
          simp only [Option.isSome_none, Bool.false_eq_true, false_iff]
          rintro ⟨-, -, -, ⟨m2, f2, hparts2, hm2, -⟩, -, -⟩
          rw [hparts] at hparts2
          obtain ⟨rfl, rfl⟩ : m = m2 ∧ f = f2 := by
            simpa using hparts2
          rw [hmv] at hm2
          exact Bool.noConfusion hm2
        | some mv =>
          cases hfv : qtToULongLong f with
          | none =>
            simp only [Option.isSome_none, Bool.false_eq_true, false_iff]
            rintro ⟨-, -, -, ⟨m2, f2, hparts2, -, hf2⟩, -, -⟩
            rw [hparts] at hparts2
            obtain ⟨rfl, rfl⟩ : m = m2 ∧ f = f2 := by
              simpa using hparts2
            rw [hfv] at hf2
            exact Bool.noConfusion hf2
          | some fv =>
            dsimp only
            by_cases h4 : queryItemValue u.query "key" = ""
            · rw [if_pos h4]
              simp only [Option.isSome_none, Bool.false_eq_true, false_iff]
              rintro ⟨-, -, -, -, hk, -⟩
              exact hk h4
            · rw [if_neg h4]
              cases hev : qtToULongLong (queryItemValue u.query "expires") with
              | none =>
                simp only [Option.isSome_none, Bool.false_eq_true, false_iff]
                rintro ⟨-, -, -, -, -, he⟩
                exact he
              | some ev =>
                simp only [Option.isSome_some, true_iff]
                exact ⟨hv', hs, h2, ⟨m, f, hparts, by rw [hmv]; rfl, by rw [hfv]; rfl⟩,
                  h4, trivial⟩

/-! ## C7 — external mapping deployment and cleanup -/

theorem isLinkAt_congr {fs fs' : Fs} {p p' : Path}
    (h : findE fs p = findE fs' p') : isLinkAt fs p = isLinkAt fs' p' := by
  unfold isLinkAt
  rw [h]

theorem cleanup_cons (fs : Fs) (q : Path) (links : List Path) :
    cleanupExternalMappings fs (q :: links)
      = cleanupExternalMappings (if isLinkAt fs q then eraseA fs q else fs) links := rfl

theorem cleanup_keeps_nonlink {fs : Fs} {p : Path} {ent : FsEntry} (links : List Path)
    (h : findE fs p = some ent) (hnl : ∀ t, ent ≠ .linkE t) :
    findE (cleanupExternalMappings fs links) p = some ent := by
  induction links generalizing fs with
  | nil => simpa [cleanupExternalMappings] using h
  | cons q links ih =>
    rw [cleanup_cons]
    cases hq : isLinkAt fs q with
    | false =>
      simp only [Bool.false_eq_true, if_false]
      exact ih h
    | true =>
      simp only [eq_self_iff_true, if_true]
      have hpq : p ≠ q := by
        intro hh
        subst hh
        unfold isLinkAt at hq
        rw [h] at hq
        cases ent with
        | linkE t => exact hnl t rfl
        | dirE => exact Bool.noConfusion hq
        | fileE c => exact Bool.noConfusion hq
      refine ih ?_
      rw [findE_eraseA, if_neg hpq]
      exact h

theorem cleanup_sub {fs : Fs} {p : Path} {ent : FsEntry} (links : List Path)
    (h : findE (cleanupExternalMappings fs links) p = some ent) :
    findE fs p = some ent := by
  induction links generalizing fs with
  | nil => simpa [cleanupExternalMappings] using h
  | cons q links ih =>
    rw [cleanup_cons] at h
    cases hq : isLinkAt fs q with
    | false =>
      rw [hq] at h
      simp only [Bool.false_eq_true, if_false] at h
      exact ih h
    | true =>
      rw [hq] at h
      simp only [eq_self_iff_true, if_true] at h
      have h2 := ih h
      rw [findE_eraseA] at h2
      by_cases hpq : p = q
      · rw [if_pos hpq] at h2
        exact Option.noConfusion h2
      · rwa [if_neg hpq] at h2

theorem cleanup_none_stays {fs : Fs} {p : Path} (links : List Path)
    (h : findE fs p = none) :
    findE (cleanupExternalMappings fs links) p = none := by
  induction links generalizing fs with
  | nil => simpa [cleanupExternalMappings] using h
  | cons q links ih =>
    rw [cleanup_cons]
    cases hq : isLinkAt fs q with
    | false =>
      simp only [Bool.false_eq_true, if_false]
      exact ih h
    | true =>
      simp only [eq_self_iff_true, if_true]
      refine ih ?_
      rw [findE_eraseA]
      by_cases hpq : p = q
      · rw [if_pos hpq]
      · rw [if_neg hpq]; exact h

theorem cleanup_removes_recorded {fs : Fs} {p : Path} (links : List Path)
    (hmem : p ∈ links) (h : isLinkAt fs p = true) :
    findE (cleanupExternalMappings fs links) p = none := by
  induction links generalizing fs with
  | nil => simp at hmem
  | cons q links ih =>
    rw [cleanup_cons]
    by_cases hpq : p = q
    · subst hpq
      rw [h]
      simp only [eq_self_iff_true, if_true]
      refine cleanup_none_stays links ?_
      rw [findE_eraseA, if_pos rfl]
    · have hmem2 : p ∈ links := by
        rcases List.mem_cons.mp hmem with hh | hh
        · exact absurd hh hpq
        · exact hh
      cases hq : isLinkAt fs q with
      | false =>
        simp only [Bool.false_eq_true, if_false]
        exact ih hmem2 h
      | true =>
        simp only [eq_self_iff_true, if_true]
        refine ih hmem2 ?_
        rw [@isLinkAt_congr (eraseA fs q) fs p p (by rw [findE_eraseA, if_neg hpq])]
        exact h

theorem cleanup_outside {fs : Fs} {p : Path} (links : List Path)
    (hmem : p ∉ links) :
    findE (cleanupExternalMappings fs links) p = findE fs p := by
  induction links generalizing fs with
  | nil => simp [cleanupExternalMappings]
  | cons q links ih =>
    have hpq : p ≠ q := fun h => hmem (h ▸ List.mem_cons_self q links)
    have hmem2 : p ∉ links := fun h => hmem (List.mem_cons_of_mem q h)
    rw [cleanup_cons]
    cases hq : isLinkAt fs q with
    | false =>
      simp only [Bool.false_eq_true, if_false]
      exact ih hmem2
    | true =>
      simp only [eq_self_iff_true, if_true]
      rw [ih hmem2, findE_eraseA, if_neg hpq]

theorem deploySymlinkAt_def (fs : Fs) (links : List Path) (dest target : Path) :
    deploySymlinkAt fs links dest target
      = match findE (mkdirsGo fs (parentChain dest)) dest with
        | some (.linkE _) =>
          (setA (mkdirsGo fs (parentChain dest)) dest (.linkE target), links ++ [dest])
        | some _ => (mkdirsGo fs (parentChain dest), links)
        | none =>
          (setA (mkdirsGo fs (parentChain dest)) dest (.linkE target), links ++ [dest]) := rfl

theorem dsl_keeps_nonlink {fs : Fs} {p : Path} {ent : FsEntry}
    (links : List Path) (dest target : Path)
    (h : findE fs p = some ent) (hnl : ∀ t, ent ≠ .linkE t) :
    findE (deploySymlinkAt fs links dest target).1 p = some ent := by
  have h1 : findE (mkdirsGo fs (parentChain dest)) p = some ent := mkdirsGo_frame _ h
  rw [deploySymlinkAt_def]
  cases hd : findE (mkdirsGo fs (parentChain dest)) dest with
  | none =>
    have hpd : p ≠ dest := fun hh => by rw [hh, hd] at h1; exact Option.noConfusion h1
    dsimp only
    rw [findE_setA_ne _ _ hpd]
    exact h1
  | some de =>
    cases de with
    | linkE t =>
      have hpd : p ≠ dest := by
        intro hh
        rw [hh, hd] at h1
        exact hnl t (Option.some.inj h1).symm
      dsimp only
      rw [findE_setA_ne _ _ hpd]
      exact h1
    | dirE => exact h1
    | fileE c => exact h1

theorem dsl_link_src {fs : Fs} {p t : Path}
    (links : List Path) (dest target : Path)
    (h : findE (deploySymlinkAt fs links dest target).1 p = some (.linkE t)) :
    p ∈ (deploySymlinkAt fs links dest target).2 ∨ findE fs p = some (.linkE t) := by
  rw [deploySymlinkAt_def] at h ⊢
  cases hd : findE (mkdirsGo fs (parentChain dest)) dest with
  | none =>
    rw [hd] at h
    dsimp only at h ⊢
    by_cases hpd : p = dest
    · exact Or.inl (by simp [hpd])
    · rw [findE_setA_ne _ _ hpd] at h
      exact Or.inr (mkdirsGo_link_back _ h)
  | some de =>
    cases de with
    | linkE t2 =>
      rw [hd] at h
      dsimp only at h ⊢
      by_cases hpd : p = dest
      · exact Or.inl (by simp [hpd])
      · rw [findE_setA_ne _ _ hpd] at h
        exact Or.inr (mkdirsGo_link_back _ h)
    | dirE =>
      rw [hd] at h
      dsimp only at h
      exact Or.inr (mkdirsGo_link_back _ h)
    | fileE c =>
      rw [hd] at h
      dsimp only at h
      exact Or.inr (mkdirsGo_link_back _ h)

theorem dsl_links_mono {fs : Fs} {x : Path} (links : List Path) (dest target : Path)
    (h : x ∈ links) : x ∈ (deploySymlinkAt fs links dest target).2 := by
  rw [deploySymlinkAt_def]
  cases hd : findE (mkdirsGo fs (parentChain dest)) dest with
  | none => simp [h]
  | some de => cases de <;> simp [h]


theorem walk_keeps_nonlink {p : Path} {ent : FsEntry} (dst src : Path)
    (l : List (Path × FsEntry)) (s : Fs × List Path)
    (hnl : ∀ t, ent ≠ .linkE t) (h : findE s.1 p = some ent) :
    findE ((l.foldl (walkStep dst src) s)).1 p = some ent := by
  refine foldl_preserves (fun s' => findE s'.1 p = some ent) _ l s
    (fun s' a _ hP => ?_) h
  cases a with
  | mk rel aent =>
    cases aent with
    | dirE => exact mkdirsGo_frame _ hP
    | fileE c => exact dsl_keeps_nonlink _ _ _ hP hnl
    | linkE t => exact dsl_keeps_nonlink _ _ _ hP hnl

theorem walk_link_inv {base : Fs} (dst src : Path)
    (l : List (Path × FsEntry)) (s : Fs × List Path)
    (h : ∀ p t, findE s.1 p = some (.linkE t) → p ∈ s.2 ∨ findE base p = some (.linkE t)) :
    ∀ p t, findE ((l.foldl (walkStep dst src) s)).1 p = some (.linkE t) →
      p ∈ (l.foldl (walkStep dst src) s).2 ∨ findE base p = some (.linkE t) := by
  refine foldl_preserves
    (fun s' => ∀ p t, findE s'.1 p = some (.linkE t) → p ∈ s'.2 ∨ findE base p = some (.linkE t))
    _ l s (fun s' a _ hP => ?_) h
  cases a with
  | mk rel aent =>
    intro p t hfind
    cases aent with
    | dirE =>
      exact hP p t (mkdirsGo_link_back _ hfind)
    | fileE c =>
      rcases dsl_link_src _ _ _ hfind with hin | hold
      · exact Or.inl hin
      · rcases hP p t hold with hin | hbase
        · exact Or.inl (dsl_links_mono _ _ _ hin)
        · exact Or.inr hbase
    | linkE t2 =>
      rcases dsl_link_src _ _ _ hfind with hin | hold
      · exact Or.inl hin
      · rcases hP p t hold with hin | hbase
        · exact Or.inl (dsl_links_mono _ _ _ hin)
        · exact Or.inr hbase

/-- C7 counterexample: with no previously recorded symlinks (so nothing at
the destination is "its own"), deploying a file-level mapping outside the
data directory removes and replaces a pre-existing foreign symlink. -/
theorem deploy_replaces_foreign_symlink :
    isLinkAt c7Fs ["opt", "game", "bin", "d3d9.dll"] = true
    ∧ (["opt", "game", "bin", "d3d9.dll"] : Path) ∉ ([] : List Path)
    ∧ findE (deployExternalMappings c7Fs [] c7Mapping c7DataDir).1
        ["opt", "game", "bin", "d3d9.dll"] = some (.linkE ["mods", "m1", "d3d9.dll"])
    ∧ findE c7Fs ["opt", "game", "bin", "d3d9.dll"]
        = some (.linkE ["old", "stale", "d3d9.dll"])
    ∧ (["old", "stale", "d3d9.dll"] : Path) ≠ ["mods", "m1", "d3d9.dll"] := by
  refine ⟨by decide, by decide, by decide, by decide, by decide⟩

/-- C7 (amended): when deploying mappings whose destination lies outside
the mount point, the deployer never replaces a pre-existing destination
entry that is not a symlink (it only removes and replaces symlinks —
normally its own from an earlier deployment, but any symlink at the
destination is replaced); every symlink present after deployment was either
recorded in the returned list or already there unchanged; and on unmount
the cleanup removes every recorded path that is still a symlink and leaves
every unrecorded path untouched. -/
theorem deploy_external_mappings_spec (fs : Fs) (prev : List Path)
    (mapping : List QMapping) (dataDir : Path) :
    (∀ p ent, findE fs p = some ent → (∀ t, ent ≠ .linkE t) →
        findE (deployExternalMappings fs prev mapping dataDir).1 p = some ent)
    ∧ (∀ p t,
        findE (deployExternalMappings fs prev mapping dataDir).1 p = some (.linkE t) →
        p ∈ (deployExternalMappings fs prev mapping dataDir).2.1
          ∨ findE fs p = some (.linkE t))
    ∧ (∀ (fs2 : Fs) (links : List Path) (p : Path), p ∈ links →
        isLinkAt fs2 p = true → findE (cleanupExternalMappings fs2 links) p = none)
    ∧ (∀ (fs2 : Fs) (links : List Path) (p : Path), p ∉ links →
        findE (cleanupExternalMappings fs2 links) p = findE fs2 p) := by
  refine ⟨?_, ?_, ?_, ?_⟩
  · intro p ent h hnl
    unfold deployExternalMappings
    refine foldl_preserves
      (fun s : Fs × List Path × List (Path × Path) => findE s.1 p = some ent)
      (deployMapStep dataDir) mapping _
      (fun (s : Fs × List Path × List (Path × Path)) m _ hP => ?_)
      (cleanup_keeps_nonlink prev h hnl)
    unfold deployMapStep
    by_cases h1 : isUnder m.destination dataDir = true
    · rw [if_pos h1]
      cases m.isDirectory <;> simpa
    · rw [if_neg h1]
      by_cases h2 : m.isDirectory = true
      · rw [if_pos h2]
        by_cases h3 : (findE s.1 m.source).isSome = true
        · rw [if_pos h3]
          exact walk_keeps_nonlink _ _ _ _ hnl hP
        · rw [if_neg h3]
          exact hP
      · rw [if_neg h2]
        exact dsl_keeps_nonlink _ _ _ hP hnl
  · unfold deployExternalMappings
    have hstart : ∀ p t,
        findE (cleanupExternalMappings fs prev, ([] : List Path),
          ([] : List (Path × Path))).1 p = some (.linkE t) →
        p ∈ (cleanupExternalMappings fs prev, ([] : List Path),
          ([] : List (Path × Path))).2.1 ∨ findE fs p = some (.linkE t) :=
      fun p t h => Or.inr (cleanup_sub prev h)
    refine foldl_preserves
      (fun s : Fs × List Path × List (Path × Path) => ∀ p t,
        findE s.1 p = some (.linkE t) → p ∈ s.2.1 ∨ findE fs p = some (.linkE t))
      (deployMapStep dataDir) mapping _
      (fun (s : Fs × List Path × List (Path × Path)) m _ hP => ?_) hstart
    unfold deployMapStep
    by_cases h1 : isUnder m.destination dataDir = true
    · rw [if_pos h1]
      cases m.isDirectory <;> simpa
    · rw [if_neg h1]
      by_cases h2 : m.isDirectory = true
      · rw [if_pos h2]
        by_cases h3 : (findE s.1 m.source).isSome = true
        · rw [if_pos h3]
          exact walk_link_inv _ _ _ _ (fun p t h => hP p t h)
        · rw [if_neg h3]
          exact hP
      · rw [if_neg h2]
        intro p t hfind
        rcases dsl_link_src _ _ _ hfind with hin | hold
        · exact Or.inl hin
        · rcases hP p t hold with hin | hbase
          · exact Or.inl (dsl_links_mono _ _ _ hin)
          · exact Or.inr hbase
  · intro fs2 links p hmem h
    exact cleanup_removes_recorded links hmem h
  · intro fs2 links p hmem
    exact cleanup_outside links hmem

/-! ## C8 — string suffix and path utilities -/

theorem str_ext {a b : String} (h : a.data = b.data) : a = b :=
  congrArg String.mk h

theorem str_append_data (a b : String) : (a ++ b).data = a.data ++ b.data := rfl

theorem strEndsWith_append (x t : String) : strEndsWith (x ++ t) t = true := by
  unfold strEndsWith
  rw [str_append_data, List.reverse_append]
  exact isUnder_append_right _ _

theorem strDropSuffix_append (x t : String) : strDropSuffix (x ++ t) t = x := by
  unfold strDropSuffix
  refine str_ext ?_
  rw [str_append_data, List.reverse_append]
  have hlen : t.data.length = t.data.reverse.length := (List.length_reverse _).symm
  rw [hlen, List.drop_left, List.reverse_reverse]

theorem strEndsWith_exists {s t : String} (h : strEndsWith s t = true) :
    ∃ x : String, s = x ++ t := by
  unfold strEndsWith at h
  obtain ⟨r, hr⟩ := (isUnder_iff _ _).mp h
  refine ⟨⟨r.reverse⟩, str_ext ?_⟩
  rw [str_append_data]
  have := congrArg List.reverse hr
  rw [List.reverse_reverse, List.reverse_append, List.reverse_reverse] at this
  exact this

theorem concat_inj {a b : Path} {x y : String}
    (h : a ++ [x] = b ++ [y]) : a = b ∧ x = y := by
  have := congrArg List.reverse h
  rw [List.reverse_append, List.reverse_append] at this
  simp only [List.reverse_cons, List.reverse_nil, List.nil_append,
    List.singleton_append, List.cons.injEq] at this
  exact ⟨List.reverse_injective this.2, this.1⟩

theorem dropLast_concat_getLastD {p : Path} (h : p ≠ []) (d : String) :
    p.dropLast ++ [p.getLastD d] = p := by
  induction p using List.reverseRecOn with
  | nil => exact absurd rfl h
  | append_singleton a x _ =>
    rw [List.dropLast_concat, List.getLastD_concat]

theorem getLastD_concat_str (a : Path) (x d : String) :
    (a ++ [x]).getLastD d = x := List.getLastD_concat _ _ _

theorem isStrictUnder_ne_nil {q r : Path} (h : isStrictUnder q r = true) : q ≠ [] := by
  intro hq
  subst hq
  cases r with
  | nil => simp [isStrictUnder] at h
  | cons a r => simp [isStrictUnder, isUnder] at h

theorem under_append_singleton {x g : Path} {s : String}
    (h : isUnder x (g ++ [s]) = true) : isUnder x g = true :=
  isUnder_trans h (isUnder_append_right g [s])

theorem sibling_not_under {g : Path} {s1 s2 : String} (hne : s1 ≠ s2) {x : Path}
    (h1 : isUnder x (g ++ [s1]) = true) (h2 : isUnder x (g ++ [s2]) = true) :
    False := by
  obtain ⟨r1, hr1⟩ := (isUnder_iff _ _).mp h1
  obtain ⟨r2, hr2⟩ := (isUnder_iff _ _).mp h2
  rw [hr1, List.append_assoc] at hr2
  have h4 : g ++ ([s1] ++ r1) = g ++ ([s2] ++ r2) := by
    rw [hr2, List.append_assoc]
  have h5 := List.append_cancel_left h4
  simp only [List.singleton_append, List.cons.injEq] at h5
  exact hne h5.1

theorem findE_some_mem {fs : Fs} {x : Path} {e : FsEntry}
    (h : findE fs x = some e) : (x, e) ∈ fs := by
  induction fs with
  | nil => exact Option.noConfusion h
  | cons pe fs ih =>
    obtain ⟨q, v⟩ := pe
    by_cases hq : q = x
    · subst hq
      simp only [findE, findA, if_pos rfl] at h
      simp [Option.some.inj h]
    · simp only [findE, findA, if_neg hq] at h
      exact List.mem_cons_of_mem _ (ih h)

theorem findE_none_of_no_binding {fs : Fs} {x : Path}
    (h : ∀ pe ∈ fs, pe.1 ≠ x) : findE fs x = none := by
  induction fs with
  | nil => rfl
  | cons pe fs ih =>
    have hne : pe.1 ≠ x := h pe (List.mem_cons_self _ _)
    simp only [findE, findA, if_neg hne]
    exact ih fun q hq => h q (List.mem_cons_of_mem _ hq)

theorem binding_findE {fs : Fs} {x : Path} {e : FsEntry}
    (hmem : (x, e) ∈ fs) (hnd : (fs.map Prod.fst).Nodup) : findE fs x = some e := by
  induction fs with
  | nil => simp at hmem
  | cons pe fs ih =>
    simp only [List.map_cons, List.nodup_cons] at hnd
    rcases List.mem_cons.mp hmem with rfl | hmem2
    · simp [findE, findA]
    · have hne : pe.1 ≠ x := by
        intro hh
        exact hnd.1 (hh ▸ List.mem_map_of_mem Prod.fst hmem2)
      simp only [findE, findA, if_neg hne]
      exact ih hmem2 hnd.2

theorem filterMap_keys_nodup (fs : Fs) (f : Path × FsEntry → Option Path)
    (hf : ∀ pe, f pe = none ∨ f pe = some pe.1)
    (hnd : (fs.map Prod.fst).Nodup) : (fs.filterMap f).Nodup := by
  induction fs with
  | nil => simp
  | cons pe fs ih =>
    simp only [List.map_cons, List.nodup_cons] at hnd
    rcases hf pe with hpe | hpe
    · simp only [List.filterMap_cons, hpe]
      exact ih hnd.2
    · simp only [List.filterMap_cons, hpe, List.nodup_cons]
      refine ⟨?_, ih hnd.2⟩
      intro hmem
      obtain ⟨qe, hq1, hq2⟩ := List.mem_filterMap.mp hmem
      rcases hf qe with hq | hq
      · rw [hq] at hq2; exact Option.noConfusion hq2
      · rw [hq] at hq2
        exact hnd.1 (Option.some.inj hq2 ▸ List.mem_map_of_mem Prod.fst hq1)

theorem mem_filesUnder {fs : Fs} {root p : Path}
    (h : p ∈ filesUnder fs root) :
    (∃ c, (p, FsEntry.fileE c) ∈ fs) ∧ isStrictUnder p root = true := by
  unfold filesUnder at h
  obtain ⟨pe, hmem, hpe⟩ := List.mem_filterMap.mp h
  obtain ⟨q, e⟩ := pe
  cases e with
  | fileE c =>
    simp only at hpe
    by_cases hs : isStrictUnder q root = true
    · rw [if_pos hs] at hpe
      obtain rfl := Option.some.inj hpe
      exact ⟨⟨c, hmem⟩, hs⟩
    · rw [if_neg hs] at hpe
      exact Option.noConfusion hpe
  | dirE => simp at hpe
  | linkE t => simp at hpe

theorem filesUnder_nodup {fs : Fs} {root : Path}
    (hnd : (fs.map Prod.fst).Nodup) : (filesUnder fs root).Nodup := by
  refine filterMap_keys_nodup fs _ (fun pe => ?_) hnd
  obtain ⟨q, e⟩ := pe
  cases e with
  | fileE c =>
    by_cases hs : isStrictUnder q root = true
    · exact Or.inr (by simp [hs])
    · exact Or.inl (by simp [hs])
  | dirE => exact Or.inl rfl
  | linkE t => exact Or.inl rfl

theorem mem_childDirs {fs : Fs} {d g : Path} (h : g ∈ childDirs fs d) :
    ∃ a, g = d ++ [a] := by
  unfold childDirs at h
  obtain ⟨pe, hmem, hpe⟩ := List.mem_filterMap.mp h
  obtain ⟨q, e⟩ := pe
  cases e with
  | dirE =>
    simp only at hpe
    by_cases hc : (q.length = d.length + 1 && isUnder q d) = true
    · rw [if_pos hc] at hpe
      obtain rfl := Option.some.inj hpe
      rw [Bool.and_eq_true] at hc
      obtain ⟨r, hr⟩ := (isUnder_iff _ _).mp hc.2
      have hlen : q.length = d.length + 1 := by
        have := hc.1
        simpa using this
      rw [hr] at hlen
      rw [List.length_append] at hlen
      have : r.length = 1 := by omega
      obtain ⟨a, hra⟩ : ∃ a, r = [a] := by
        cases r with
        | nil => simp at this
        | cons a r2 =>
          refine ⟨a, ?_⟩
          simp only [List.length_cons] at this
          have : r2 = [] := List.eq_nil_of_length_eq_zero (by omega)
          rw [this]
      exact ⟨a, by rw [hr, hra]⟩
    · rw [if_neg hc] at hpe
      exact Option.noConfusion hpe
  | fileE c => simp at hpe
  | linkE t => simp at hpe

theorem childDirs_nodup {fs : Fs} {d : Path}
    (hnd : (fs.map Prod.fst).Nodup) : (childDirs fs d).Nodup := by
  refine filterMap_keys_nodup fs _ (fun pe => ?_) hnd
  obtain ⟨q, e⟩ := pe
  cases e with
  | dirE =>
    by_cases hc : (q.length = d.length + 1 && isUnder q d) = true
    · exact Or.inr (by simp only; rw [if_pos hc])
    · exact Or.inl (by simp only; rw [if_neg hc])
  | fileE c => exact Or.inl rfl
  | linkE t => exact Or.inl rfl

/-! ## C8 — subtree removal and directory rename lemmas -/

theorem eraseSubtree_cons (q : Path) (e : FsEntry) (fs : Fs) (d : Path) :
    eraseSubtree ((q, e) :: fs) d
      = if isUnder q d then eraseSubtree fs d else (q, e) :: eraseSubtree fs d := by
  simp only [eraseSubtree, List.filter_cons]
  cases isUnder q d <;> simp

theorem findE_eraseSubtree (fs : Fs) (d x : Path) :
    findE (eraseSubtree fs d) x = if isUnder x d then none else findE fs x := by
  induction fs with
  | nil =>
    simp only [eraseSubtree, List.filter_nil]
    split <;> rfl
  | cons pe fs ih =>
    obtain ⟨q, e⟩ := pe
    rw [eraseSubtree_cons]
    cases hq : isUnder q d with
    | true =>
      simp only [eq_self_iff_true, if_true]
      rw [ih]
      by_cases hx : isUnder x d = true
      · rw [if_pos hx, if_pos hx]
      · rw [if_neg hx, if_neg hx]
        have hqx : q ≠ x := by
          intro hh
          rw [hh] at hq
          rw [hq] at hx
          exact hx rfl
        simp only [findE, findA, if_neg hqx]
    | false =>
      simp only [Bool.false_eq_true, if_false]
      by_cases hqx : q = x
      · subst hqx
        rw [if_neg (by simp [hq])]
        show findA ((q, e) :: eraseSubtree fs d) q = findA ((q, e) :: fs) q
        simp [findA]
      · show findA ((q, e) :: eraseSubtree fs d) x
          = if isUnder x d = true then none else findA ((q, e) :: fs) x
        simp only [findA, if_neg hqx]
        exact ih

theorem eraseSubtree_no_binding {fs : Fs} {d : Path} :
    ∀ pe ∈ eraseSubtree fs d, isUnder pe.1 d = false := by
  intro pe h
  have := List.of_mem_filter h
  simpa using this

theorem eraseSubtree_subset {fs : Fs} {d : Path} :
    ∀ pe ∈ eraseSubtree fs d, pe ∈ fs :=
  fun _ h => List.mem_of_mem_filter h

theorem reRoot_cons (q : Path) (e : FsEntry) (fs : Fs) (src dst : Path) :
    reRoot ((q, e) :: fs) src dst
      = (if isUnder q src then (dst ++ q.drop src.length, e) else (q, e))
          :: reRoot fs src dst := rfl

theorem reRoot_frame (fs : Fs) (src dst x : Path)
    (h1 : isUnder x src = false) (h2 : isUnder x dst = false) :
    findE (reRoot fs src dst) x = findE fs x := by
  induction fs with
  | nil => rfl
  | cons pe fs ih =>
    obtain ⟨q, e⟩ := pe
    rw [reRoot_cons]
    cases hq : isUnder q src with
    | true =>
      simp only [eq_self_iff_true, if_true]
      have hkey : dst ++ q.drop src.length ≠ x := by
        intro hh
        rw [← hh] at h2
        rw [isUnder_append_right] at h2
        exact Bool.noConfusion h2
      have hqx : q ≠ x := by
        intro hh
        rw [hh] at hq
        rw [hq] at h1
        exact Bool.noConfusion h1
      show findA ((dst ++ q.drop src.length, e) :: reRoot fs src dst) x
        = findA ((q, e) :: fs) x
      simp only [findA, if_neg hkey, if_neg hqx]
      exact ih
    | false =>
      simp only [Bool.false_eq_true, if_false]
      show findA ((q, e) :: reRoot fs src dst) x = findA ((q, e) :: fs) x
      by_cases hqx : q = x
      · simp only [findA, if_pos hqx]
      · simp only [findA, if_neg hqx]
        exact ih

theorem reRoot_char (src dst xr : Path) :
    ∀ (fs : Fs), (∀ pe ∈ fs, isUnder pe.1 dst = false) →
      findE (reRoot fs src dst) (dst ++ xr) = findE fs (src ++ xr) := by
  intro fs
  induction fs with
  | nil => intro _; rfl
  | cons pe fs ih =>
    intro hclean
    obtain ⟨q, e⟩ := pe
    have hq_not_dst : isUnder q dst = false := by
      simpa using hclean (q, e) (List.mem_cons_self _ _)
    have hclean2 : ∀ pe ∈ fs, isUnder pe.1 dst = false :=
      fun pe h => hclean pe (List.mem_cons_of_mem _ h)
    rw [reRoot_cons]
    cases hq : isUnder q src with
    | true =>
      obtain ⟨r, rfl⟩ := (isUnder_iff q src).mp hq
      simp only [eq_self_iff_true, if_true]
      have hdrop : (src ++ r).drop src.length = r := List.drop_left src r
      rw [hdrop]
      by_cases hrx : r = xr
      · subst hrx
        simp [findE, findA]
      · have h1 : dst ++ r ≠ dst ++ xr := by
          intro hh
          exact hrx (List.append_cancel_left hh)
        have h2 : src ++ r ≠ src ++ xr := by
          intro hh
          exact hrx (List.append_cancel_left hh)
        simp only [findE, findA, if_neg h1, if_neg h2]
        exact ih hclean2
    | false =>
      simp only [Bool.false_eq_true, if_false]
      have h1 : q ≠ dst ++ xr := by
        intro hh
        rw [hh, isUnder_append_right] at hq_not_dst
        exact Bool.noConfusion hq_not_dst
      have h2 : q ≠ src ++ xr := by
        intro hh
        rw [hh, isUnder_append_right] at hq
        exact Bool.noConfusion hq
      simp only [findE, findA, if_neg h1, if_neg h2]
      exact ih hclean2

theorem reRoot_kills (fs : Fs) (src dst x : Path)
    (h1 : isUnder x src = true) (h2 : isUnder x dst = false) :
    findE (reRoot fs src dst) x = none := by
  induction fs with
  | nil => rfl
  | cons pe fs ih =>
    obtain ⟨q, e⟩ := pe
    rw [reRoot_cons]
    cases hq : isUnder q src with
    | true =>
      simp only [eq_self_iff_true, if_true]
      have hkey : dst ++ q.drop src.length ≠ x := by
        intro hh
        rw [← hh, isUnder_append_right] at h2
        exact Bool.noConfusion h2
      simp only [findE, findA, if_neg hkey]
      exact ih
    | false =>
      simp only [Bool.false_eq_true, if_false]
      have hqx : q ≠ x := by
        intro hh
        rw [hh, h1] at hq
        exact Bool.noConfusion hq
      simp only [findE, findA, if_neg hqx]
      exact ih

theorem reRoot_members {fs : Fs} {src dst : Path} :
    ∀ pe ∈ reRoot fs src dst, pe ∈ fs ∨ isUnder pe.1 dst = true := by
  intro pe h
  obtain ⟨qe, hq, hqe⟩ := List.mem_map.mp h
  by_cases hqs : isUnder qe.1 src = true
  · rw [if_pos hqs] at hqe
    right
    rw [← hqe]
    exact isUnder_append_right _ _
  · rw [if_neg hqs] at hqe
    left
    exact hqe ▸ hq

/-! ## C8 — the INI restore pass -/

theorem iniLiveOf_of_name {p : Path} {n : String}
    (hname : p.getLastD "" = n ++ bIniSfx) :
    iniLiveOf p = some (p.dropLast ++ [n]) := by
  unfold iniLiveOf
  rw [hname, strEndsWith_append]
  simp [strDropSuffix_append]

theorem iniLiveOf_some_shape {p lv : Path}
    (h : iniLiveOf p = some lv) :
    strEndsWith (p.getLastD "") bIniSfx = true
    ∧ lv = p.dropLast ++ [strDropSuffix (p.getLastD "") bIniSfx] := by
  unfold iniLiveOf at h
  by_cases hc : strEndsWith (p.getLastD "") bIniSfx = true
  · rw [if_pos hc] at h
    exact ⟨hc, (Option.some.inj h).symm⟩
  · rw [if_neg hc] at h
    exact Option.noConfusion h

theorem iniStep_frame {acc : Fs} {q x : Path}
    (hcond : ∀ lv, iniLiveOf q = some lv → x ≠ q ∧ x ≠ lv) :
    findE (iniStep acc q) x = findE acc x := by
  unfold iniStep
  cases hl : iniLiveOf q with
  | none => rfl
  | some lv =>
    obtain ⟨hxq, hxlv⟩ := hcond lv hl
    dsimp only
    unfold restGameIni
    cases hb : findE acc q with
    | none => rfl
    | some bent =>
      dsimp only
      cases hlv : findE acc lv with
      | none =>
        dsimp only
        rw [findE_setA_ne _ _ hxlv, findE_eraseA, if_neg hxq]
      | some le =>
        cases le with
        | dirE => rfl
        | fileE c =>
          dsimp only
          rw [findE_setA_ne _ _ hxlv, findE_eraseA, if_neg hxq]
        | linkE t =>
          dsimp only
          rw [findE_setA_ne _ _ hxlv, findE_eraseA, if_neg hxq]

theorem iniStep_fires {acc : Fs} {p live : Path} {cp : String}
    (hl : iniLiveOf p = some live)
    (hb : findE acc p = some (.fileE cp))
    (hnd : isDirAt acc live = false)
    (hpl : p ≠ live) :
    findE (iniStep acc p) live = some (.fileE cp)
    ∧ findE (iniStep acc p) p = none := by
  unfold iniStep
  rw [hl]
  dsimp only
  unfold restGameIni
  rw [hb]
  dsimp only
  have hlp : live ≠ p := fun h => hpl h.symm
  cases hlv : findE acc live with
  | none =>
    constructor
    · rw [findE_setA, if_pos rfl]
    · rw [findE_setA_ne _ _ hpl, findE_eraseA, if_pos rfl]
  | some le =>
    cases le with
    | dirE => rw [isDirAt, hlv] at hnd; exact Bool.noConfusion hnd
    | fileE c =>
      constructor
      · rw [findE_setA, if_pos rfl]
      · rw [findE_setA_ne _ _ hpl, findE_eraseA, if_pos rfl]
    | linkE t =>
      constructor
      · rw [findE_setA, if_pos rfl]
      · rw [findE_setA_ne _ _ hpl, findE_eraseA, if_pos rfl]

/-- The side conditions letting another backup's restore leave the target
backup `p` and its live path untouched. -/
theorem ini_noninterf {fs : Fs} {pfx : Path} {p q : Path} {n : String}
    (hqmem : q ∈ filesUnder fs (drive_c pfx))
    (hname : p.getLastD "" = n ++ bIniSfx)
    (hchain : strEndsWith n bIniSfx = false)
    (hnochain : ∀ r ∈ filesUnder fs (drive_c pfx),
        strEndsWith (strDropSuffix (r.getLastD "") bIniSfx) bIniSfx = false)
    (hp_ne : p ≠ [])
    (hqp : q ≠ p) :
    ∀ lv, iniLiveOf q = some lv →
      (q ≠ p.dropLast ++ [n] ∧ lv ≠ p ∧ lv ≠ p.dropLast ++ [n]) := by
  intro lv hlv
  obtain ⟨hqsfx, hlvshape⟩ := iniLiveOf_some_shape hlv
  obtain ⟨x, hx⟩ := strEndsWith_exists hqsfx
  have hdrop : strDropSuffix (q.getLastD "") bIniSfx = x := by
    rw [hx, strDropSuffix_append]
  have hq_ne : q ≠ [] := isStrictUnder_ne_nil (mem_filesUnder hqmem).2
  have hxnosfx : strEndsWith x bIniSfx = false := by
    have := hnochain q hqmem
    rwa [hdrop] at this
  refine ⟨?_, ?_, ?_⟩
  · intro hh
    have : q.getLastD "" = n := by
      rw [hh, getLastD_concat_str]
    rw [this] at hx
    rw [hx] at hchain
    rw [strEndsWith_append] at hchain
    exact Bool.noConfusion hchain
  · intro hh
    rw [hlvshape, hdrop] at hh
    have : p.getLastD "" = x := by
      rw [← hh, getLastD_concat_str]
    rw [hname] at this
    rw [← this] at hxnosfx
    rw [strEndsWith_append] at hxnosfx
    exact Bool.noConfusion hxnosfx
  · intro hh
    rw [hlvshape, hdrop] at hh
    obtain ⟨hdl, hxn⟩ := concat_inj hh
    have hq_eq : q = q.dropLast ++ [q.getLastD ""] := (dropLast_concat_getLastD hq_ne "").symm
    have hp_eq : p = p.dropLast ++ [p.getLastD ""] := (dropLast_concat_getLastD hp_ne "").symm
    apply hqp
    rw [hq_eq, hp_eq, hdl, hx, hxn, hname]

theorem iniPass_restores {fs : Fs} {pfx : Path} {p : Path} {n cp : String}
    (hkeys : (fs.map Prod.fst).Nodup)
    (hmem : p ∈ filesUnder fs (drive_c pfx))
    (hname : p.getLastD "" = n ++ bIniSfx)
    (hchain : strEndsWith n bIniSfx = false)
    (hnochain : ∀ r ∈ filesUnder fs (drive_c pfx),
        strEndsWith (strDropSuffix (r.getLastD "") bIniSfx) bIniSfx = false)
    (hlivedir : isDirAt fs (p.dropLast ++ [n]) = false)
    (hfind : findE fs p = some (.fileE cp)) :
    findE (iniPass fs pfx) (p.dropLast ++ [n]) = some (.fileE cp)
    ∧ findE (iniPass fs pfx) p = none := by
  have hp_ne : p ≠ [] := isStrictUnder_ne_nil (mem_filesUnder hmem).2
  have hpl : p ≠ p.dropLast ++ [n] := by
    intro hh
    have h1 : p.getLastD "" = n := by
      rw [hh, getLastD_concat_str]
    rw [hname] at h1
    have := congrArg String.length h1
    rw [String.length_append] at this
    have hsfx : bIniSfx.length = 16 := rfl
    omega
  have hLnd : (filesUnder fs (drive_c pfx)).Nodup := filesUnder_nodup hkeys
  obtain ⟨L1, L2, hsplit⟩ := List.append_of_mem hmem
  have hpnotin : p ∉ L1 ∧ p ∉ L2 := by
    rw [hsplit] at hLnd
    rw [List.nodup_append] at hLnd
    obtain ⟨-, hnd2, hdisj⟩ := hLnd
    constructor
    · intro hmem1
      exact hdisj hmem1 (List.mem_cons_self _ _)
    · intro hmem2
      exact (List.nodup_cons.mp hnd2).1 hmem2
  have hmemL : ∀ q ∈ L1 ++ p :: L2, q ∈ filesUnder fs (drive_c pfx) := by
    rw [← hsplit]
    exact fun q h => h
  unfold iniPass
  rw [hsplit, List.foldl_append, List.foldl_cons]
  have hphase1 : findE (L1.foldl iniStep fs) p = some (.fileE cp)
      ∧ findE (L1.foldl iniStep fs) (p.dropLast ++ [n]) = findE fs (p.dropLast ++ [n]) := by
    refine foldl_preserves
      (fun acc => findE acc p = some (.fileE cp)
        ∧ findE acc (p.dropLast ++ [n]) = findE fs (p.dropLast ++ [n]))
      iniStep L1 fs (fun acc q hq hP => ?_) ⟨hfind, rfl⟩
    have hqmem : q ∈ filesUnder fs (drive_c pfx) :=
      hmemL q (List.mem_append_left _ hq)
    have hqp : q ≠ p := fun hh => hpnotin.1 (hh ▸ hq)
    have hni := ini_noninterf hqmem hname hchain hnochain hp_ne hqp
    constructor
    · rw [iniStep_frame (fun lv hlv => ⟨fun hh => hqp hh.symm, fun hh => (hni lv hlv).2.1 hh.symm⟩)]
      exact hP.1
    · rw [iniStep_frame (fun lv hlv =>
        ⟨fun hh => (hni lv hlv).1 hh.symm, fun hh => (hni lv hlv).2.2 hh.symm⟩)]
      exact hP.2
  have hstep := iniStep_fires (iniLiveOf_of_name hname) hphase1.1
    (by rw [isDirAt_congr hphase1.2]; exact hlivedir) hpl
  refine foldl_preserves
    (fun acc => findE acc (p.dropLast ++ [n]) = some (.fileE cp) ∧ findE acc p = none)
    iniStep L2 _ (fun acc q hq hP => ?_) ⟨hstep.1, hstep.2⟩
  have hqmem : q ∈ filesUnder fs (drive_c pfx) :=
    hmemL q (List.mem_append_right _ (List.mem_cons_of_mem _ hq))
  have hqp : q ≠ p := fun hh => hpnotin.2 (hh ▸ hq)
  have hni := ini_noninterf hqmem hname hchain hnochain hp_ne hqp
  constructor
  · rw [iniStep_frame (fun lv hlv =>
      ⟨fun hh => (hni lv hlv).1 hh.symm, fun hh => (hni lv hlv).2.2 hh.symm⟩)]
    exact hP.1
  · rw [iniStep_frame (fun lv hlv => ⟨fun hh => hqp hh.symm, fun hh => (hni lv hlv).2.1 hh.symm⟩)]
    exact hP.2

/-! ## C8 — the saves restore: renameStep and restSaves -/

theorem renameStep_clean {fs : Fs} {b live : Path} (k : Fs → Fs × Bool)
    (hnone : findE fs live = none) :
    renameStep fs b live k = k (if isDirAt fs b then reRoot fs b live else fs) := by
  unfold renameStep
  by_cases hc : isDirAt fs b = true
  · rw [if_pos hc, if_pos hc]
    unfold renameDirQ
    rw [hnone]
    simp only [Option.isSome_none, Bool.false_eq_true, if_false]
  · rw [if_neg hc, if_neg hc]

theorem renameStep_cases (fs : Fs) (b live : Path) (k : Fs → Fs × Bool) :
    renameStep fs b live k = (fs, false)
    ∨ ∃ f3 : Fs, (f3 = fs ∨ f3 = reRoot fs b live) ∧ renameStep fs b live k = k f3 := by
  unfold renameStep
  by_cases hc : isDirAt fs b = true
  · rw [if_pos hc]
    unfold renameDirQ
    by_cases hr : (findE fs live).isSome = true
    · rw [if_pos hr]
      exact Or.inl rfl
    · rw [if_neg hr]
      exact Or.inr ⟨reRoot fs b live, Or.inr rfl, rfl⟩
  · rw [if_neg hc]
    exact Or.inr ⟨fs, Or.inl rfl, rfl⟩

theorem findE_none_of_clean {fs : Fs} {d : Path}
    (hcl : ∀ pe ∈ fs, isUnder pe.1 d = false) {x : Path} (hx : isUnder x d = true) :
    findE fs x = none := by
  refine findE_none_of_no_binding (fun pe hpe => ?_)
  intro heq
  have h1 := hcl pe hpe
  rw [heq] at h1
  rw [hx] at h1
  exact Bool.noConfusion h1

theorem not_under_sibling {g : Path} {s1 s2 : String} (hne : s1 ≠ s2) {x : Path}
    (hx : isUnder x (g ++ [s1]) = true) : isUnder x (g ++ [s2]) = false := by
  cases hh : isUnder x (g ++ [s2]) with
  | false => rfl
  | true => exact (sibling_not_under hne hx hh).elim

theorem restSaves_frame (fs : Fs) (lU lL bU bL x : Path)
    (h1 : isUnder x lU = false) (h2 : isUnder x lL = false)
    (h3 : isUnder x bU = false) (h4 : isUnder x bL = false) :
    findE (restSaves fs lU lL bU bL).1 x = findE fs x := by
  simp only [restSaves]
  set fs1 := if isDirAt fs lU then eraseSubtree fs lU else fs with hfs1
  set fs2 := if isDirAt fs1 lL then eraseSubtree fs1 lL else fs1 with hfs2
  have f1 : findE fs1 x = findE fs x := by
    rw [hfs1]
    by_cases hc : isDirAt fs lU = true
    · rw [if_pos hc, findE_eraseSubtree, h1]
      simp only [Bool.false_eq_true, if_false]
    · rw [if_neg hc]
  have f2 : findE fs2 x = findE fs x := by
    rw [hfs2]
    by_cases hc : isDirAt fs1 lL = true
    · rw [if_pos hc, findE_eraseSubtree, h2]
      simp only [Bool.false_eq_true, if_false]
      exact f1
    · rw [if_neg hc]
      exact f1
  rcases renameStep_cases fs2 bU lU
      (fun fs3 => renameStep fs3 bL lL fun fs4 => (fs4, true)) with hcase | ⟨f3, hf3, hcase⟩
  · rw [hcase]
    exact f2
  · rw [hcase]
    have hf3x : findE f3 x = findE fs x := by
      rcases hf3 with rfl | rfl
      · exact f2
      · rw [reRoot_frame fs2 bU lU x h3 h1]
        exact f2
    rcases renameStep_cases f3 bL lL (fun fs4 => (fs4, true)) with h2c | ⟨f4, hf4, h2c⟩
    · rw [h2c]
      exact hf3x
    · rw [h2c]
      rcases hf4 with rfl | rfl
      · exact hf3x
      · rw [reRoot_frame f3 bL lL x h4 h2]
        exact hf3x

theorem restSaves_members (fs : Fs) (lU lL bU bL : Path) :
    ∀ pe ∈ (restSaves fs lU lL bU bL).1,
      pe ∈ fs ∨ isUnder pe.1 lU = true ∨ isUnder pe.1 lL = true := by
  simp only [restSaves]
  set fs1 := if isDirAt fs lU then eraseSubtree fs lU else fs with hfs1
  set fs2 := if isDirAt fs1 lL then eraseSubtree fs1 lL else fs1 with hfs2
  have hsub1 : ∀ pe ∈ fs1, pe ∈ fs := by
    rw [hfs1]
    by_cases hc : isDirAt fs lU = true
    · rw [if_pos hc]
      exact fun pe h => eraseSubtree_subset pe h
    · rw [if_neg hc]
      exact fun pe h => h
  have hsub2 : ∀ pe ∈ fs2, pe ∈ fs := by
    rw [hfs2]
    by_cases hc : isDirAt fs1 lL = true
    · rw [if_pos hc]
      exact fun pe h => hsub1 pe (eraseSubtree_subset pe h)
    · rw [if_neg hc]
      exact hsub1
  rcases renameStep_cases fs2 bU lU
      (fun fs3 => renameStep fs3 bL lL fun fs4 => (fs4, true)) with hcase | ⟨f3, hf3, hcase⟩
  · rw [hcase]
    exact fun pe h => Or.inl (hsub2 pe h)
  · rw [hcase]
    have hm3 : ∀ pe ∈ f3, pe ∈ fs ∨ isUnder pe.1 lU = true := by
      rcases hf3 with rfl | rfl
      · exact fun pe h => Or.inl (hsub2 pe h)
      · intro pe h
        rcases reRoot_members pe h with h2 | h2
        · exact Or.inl (hsub2 pe h2)
        · exact Or.inr h2
    rcases renameStep_cases f3 bL lL (fun fs4 => (fs4, true)) with h2c | ⟨f4, hf4, h2c⟩
    · rw [h2c]
      exact fun pe h => (hm3 pe h).imp id Or.inl
    · rw [h2c]
      intro pe h
      have hp4 : pe ∈ f3 ∨ isUnder pe.1 lL = true := by
        rcases hf4 with rfl | rfl
        · exact Or.inl h
        · exact reRoot_members pe h
      rcases hp4 with h4 | h4
      · exact (hm3 pe h4).imp id Or.inl
      · exact Or.inr (Or.inr h4)

/-- `restoreBackedUpSaves` on a game directory `g` whose four special
children are clean (each either a directory or absent from the store):
it succeeds, the live `Saves`/`saves` subtrees afterwards hold exactly
the corresponding backup subtrees (or nothing when the backup directory
was absent), and a present backup subtree is gone. -/
theorem restSaves_spec (fs : Fs) (g : Path)
    (hcU : isDirAt fs (g ++ ["Saves"]) = true
      ∨ ∀ pe ∈ fs, isUnder pe.1 (g ++ ["Saves"]) = false)
    (hcL : isDirAt fs (g ++ ["saves"]) = true
      ∨ ∀ pe ∈ fs, isUnder pe.1 (g ++ ["saves"]) = false) :
    (restSaves fs (g ++ ["Saves"]) (g ++ ["saves"]) (g ++ [bSavesU]) (g ++ [bSavesL])).2 = true
    ∧ (∀ x, isUnder x (g ++ ["Saves"]) = true →
        findE (restSaves fs (g ++ ["Saves"]) (g ++ ["saves"]) (g ++ [bSavesU]) (g ++ [bSavesL])).1 x
          = if isDirAt fs (g ++ [bSavesU]) then
              findE fs (g ++ [bSavesU] ++ x.drop (g ++ ["Saves"]).length)
            else none)
    ∧ (∀ x, isUnder x (g ++ ["saves"]) = true →
        findE (restSaves fs (g ++ ["Saves"]) (g ++ ["saves"]) (g ++ [bSavesU]) (g ++ [bSavesL])).1 x
          = if isDirAt fs (g ++ [bSavesL]) then
              findE fs (g ++ [bSavesL] ++ x.drop (g ++ ["saves"]).length)
            else none)
    ∧ (∀ x, isUnder x (g ++ [bSavesU]) = true →
        findE (restSaves fs (g ++ ["Saves"]) (g ++ ["saves"]) (g ++ [bSavesU]) (g ++ [bSavesL])).1 x
          = if isDirAt fs (g ++ [bSavesU]) then none else findE fs x)
    ∧ (∀ x, isUnder x (g ++ [bSavesL]) = true →
        findE (restSaves fs (g ++ ["Saves"]) (g ++ ["saves"]) (g ++ [bSavesU]) (g ++ [bSavesL])).1 x
          = if isDirAt fs (g ++ [bSavesL]) then none else findE fs x) := by
  have neUL : ("Saves" : String) ≠ "saves" := by decide
  have neUbU : ("Saves" : String) ≠ bSavesU := by decide
  have neUbL : ("Saves" : String) ≠ bSavesL := by decide
  have neLbU : ("saves" : String) ≠ bSavesU := by decide
  have neLbL : ("saves" : String) ≠ bSavesL := by decide
  have nebUbL : bSavesU ≠ bSavesL := by decide
  have hsd : ∀ (s1 s2 : String), s1 ≠ s2 → isUnder (g ++ [s1]) (g ++ [s2]) = false :=
    fun s1 s2 hne => not_under_sibling hne (isUnder_refl _)
  simp only [restSaves]
  set fs1 := if isDirAt fs (g ++ ["Saves"]) then eraseSubtree fs (g ++ ["Saves"]) else fs with hfs1
  set fs2 := if isDirAt fs1 (g ++ ["saves"]) then eraseSubtree fs1 (g ++ ["saves"]) else fs1 with hfs2
  have hsub1 : ∀ pe ∈ fs1, pe ∈ fs := by
    rw [hfs1]
    by_cases hc : isDirAt fs (g ++ ["Saves"]) = true
    · rw [if_pos hc]
      exact fun pe h => eraseSubtree_subset pe h
    · rw [if_neg hc]
      exact fun pe h => h
  have hclean1U : ∀ pe ∈ fs1, isUnder pe.1 (g ++ ["Saves"]) = false := by
    rw [hfs1]
    by_cases hc : isDirAt fs (g ++ ["Saves"]) = true
    · rw [if_pos hc]
      exact fun pe h => eraseSubtree_no_binding pe h
    · rw [if_neg hc]
      rcases hcU with hd | hcl
      · exact absurd hd hc
      · exact hcl
  have f1 : ∀ x, isUnder x (g ++ ["Saves"]) = false → findE fs1 x = findE fs x := by
    intro x hx
    rw [hfs1]
    by_cases hc : isDirAt fs (g ++ ["Saves"]) = true
    · rw [if_pos hc, findE_eraseSubtree, hx]
      simp only [Bool.false_eq_true, if_false]
    · rw [if_neg hc]
  have hsub2 : ∀ pe ∈ fs2, pe ∈ fs1 := by
    rw [hfs2]
    by_cases hc : isDirAt fs1 (g ++ ["saves"]) = true
    · rw [if_pos hc]
      exact fun pe h => eraseSubtree_subset pe h
    · rw [if_neg hc]
      exact fun pe h => h
  have hclean2L : ∀ pe ∈ fs2, isUnder pe.1 (g ++ ["saves"]) = false := by
    rw [hfs2]
    by_cases hc : isDirAt fs1 (g ++ ["saves"]) = true
    · rw [if_pos hc]
      exact fun pe h => eraseSubtree_no_binding pe h
    · rw [if_neg hc]
      have hcongr : isDirAt fs1 (g ++ ["saves"]) = isDirAt fs (g ++ ["saves"]) :=
        isDirAt_congr (f1 _ (hsd _ _ (Ne.symm neUL)))
      rcases hcL with hd | hcl
      · rw [hcongr] at hc
        exact absurd hd hc
      · exact fun pe h => hcl pe (hsub1 pe h)
  have hclean2U : ∀ pe ∈ fs2, isUnder pe.1 (g ++ ["Saves"]) = false :=
    fun pe h => hclean1U pe (hsub2 pe h)
  have f2 : ∀ x, isUnder x (g ++ ["Saves"]) = false → isUnder x (g ++ ["saves"]) = false →
      findE fs2 x = findE fs x := by
    intro x hxU hxL
    rw [hfs2]
    by_cases hc : isDirAt fs1 (g ++ ["saves"]) = true
    · rw [if_pos hc, findE_eraseSubtree, hxL]
      simp only [Bool.false_eq_true, if_false]
      exact f1 x hxU
    · rw [if_neg hc]
      exact f1 x hxU
  have hnoneU : findE fs2 (g ++ ["Saves"]) = none :=
    findE_none_of_clean hclean2U (isUnder_refl _)
  rw [renameStep_clean _ hnoneU]
  set fs3 := if isDirAt fs2 (g ++ [bSavesU]) then
      reRoot fs2 (g ++ [bSavesU]) (g ++ ["Saves"]) else fs2 with hfs3
  have hm3 : ∀ pe ∈ fs3, pe ∈ fs2 ∨ isUnder pe.1 (g ++ ["Saves"]) = true := by
    rw [hfs3]
    by_cases hc : isDirAt fs2 (g ++ [bSavesU]) = true
    · rw [if_pos hc]
      exact fun pe h => reRoot_members pe h
    · rw [if_neg hc]
      exact fun pe h => Or.inl h
  have hclean3L : ∀ pe ∈ fs3, isUnder pe.1 (g ++ ["saves"]) = false := by
    intro pe h
    rcases hm3 pe h with h2 | h2
    · exact hclean2L pe h2
    · exact not_under_sibling neUL h2
  have f3 : ∀ x, isUnder x (g ++ ["Saves"]) = false → isUnder x (g ++ [bSavesU]) = false →
      findE fs3 x = findE fs2 x := by
    intro x h1 h2
    rw [hfs3]
    by_cases hc : isDirAt fs2 (g ++ [bSavesU]) = true
    · rw [if_pos hc]
      exact reRoot_frame _ _ _ _ h2 h1
    · rw [if_neg hc]
  have hnoneL : findE fs3 (g ++ ["saves"]) = none :=
    findE_none_of_clean hclean3L (isUnder_refl _)
  rw [renameStep_clean _ hnoneL]
  set fs4 := if isDirAt fs3 (g ++ [bSavesL]) then
      reRoot fs3 (g ++ [bSavesL]) (g ++ ["saves"]) else fs3 with hfs4
  have f4 : ∀ x, isUnder x (g ++ ["saves"]) = false → isUnder x (g ++ [bSavesL]) = false →
      findE fs4 x = findE fs3 x := by
    intro x h1 h2
    rw [hfs4]
    by_cases hc : isDirAt fs3 (g ++ [bSavesL]) = true
    · rw [if_pos hc]
      exact reRoot_frame _ _ _ _ h2 h1
    · rw [if_neg hc]
  have hdbU : isDirAt fs2 (g ++ [bSavesU]) = isDirAt fs (g ++ [bSavesU]) :=
    isDirAt_congr (f2 _ (hsd _ _ (Ne.symm neUbU)) (hsd _ _ (Ne.symm neLbU)))
  have hdbL3 : isDirAt fs3 (g ++ [bSavesL]) = isDirAt fs (g ++ [bSavesL]) := by
    have h1 : findE fs3 (g ++ [bSavesL]) = findE fs2 (g ++ [bSavesL]) :=
      f3 _ (hsd _ _ (Ne.symm neUbL)) (hsd _ _ (Ne.symm nebUbL))
    have h2 : findE fs2 (g ++ [bSavesL]) = findE fs (g ++ [bSavesL]) :=
      f2 _ (hsd _ _ (Ne.symm neUbL)) (hsd _ _ (Ne.symm neLbL))
    exact isDirAt_congr (h1.trans h2)
  refine ⟨rfl, ?_, ?_, ?_, ?_⟩
  · intro x hx
    have hxL : isUnder x (g ++ ["saves"]) = false := not_under_sibling neUL hx
    have hxbL : isUnder x (g ++ [bSavesL]) = false := not_under_sibling neUbL hx
    rw [f4 x hxL hxbL]
    obtain ⟨xr, rfl⟩ := (isUnder_iff x (g ++ ["Saves"])).mp hx
    rw [hfs3]
    by_cases hc : isDirAt fs2 (g ++ [bSavesU]) = true
    · rw [if_pos hc]
      rw [reRoot_char _ _ _ fs2 hclean2U]
      have hb1 := not_under_sibling (Ne.symm neUbU) (isUnder_append_right (g ++ [bSavesU]) xr)
      have hb2 := not_under_sibling (Ne.symm neLbU) (isUnder_append_right (g ++ [bSavesU]) xr)
      rw [f2 _ hb1 hb2]
      rw [hdbU] at hc
      rw [if_pos hc, List.drop_left]
    · rw [if_neg hc]
      have hnn : findE fs2 (g ++ ["Saves"] ++ xr) = none :=
        findE_none_of_clean hclean2U (isUnder_append_right _ _)
      rw [hnn]
      rw [hdbU] at hc
      rw [if_neg hc]
  · intro x hx
    have hxU : isUnder x (g ++ ["Saves"]) = false := not_under_sibling (Ne.symm neUL) hx
    have hxbU : isUnder x (g ++ [bSavesU]) = false := not_under_sibling neLbU hx
    obtain ⟨xr, rfl⟩ := (isUnder_iff x (g ++ ["saves"])).mp hx
    rw [hfs4]
    by_cases hc : isDirAt fs3 (g ++ [bSavesL]) = true
    · rw [if_pos hc]
      rw [reRoot_char _ _ _ fs3 hclean3L]
      have hb1 := not_under_sibling (Ne.symm neUbL) (isUnder_append_right (g ++ [bSavesL]) xr)
      have hb2 := not_under_sibling (Ne.symm neLbL) (isUnder_append_right (g ++ [bSavesL]) xr)
      have hb3 := not_under_sibling (Ne.symm nebUbL) (isUnder_append_right (g ++ [bSavesL]) xr)
      rw [f3 _ hb1 hb3, f2 _ hb1 hb2]
      rw [hdbL3] at hc
      rw [if_pos hc, List.drop_left]
    · rw [if_neg hc]
      have hnn : findE fs3 (g ++ ["saves"] ++ xr) = none :=
        findE_none_of_clean hclean3L (isUnder_append_right _ _)
      rw [hnn]
      rw [hdbL3] at hc
      rw [if_neg hc]
  · intro x hx
    have hxU : isUnder x (g ++ ["Saves"]) = false := not_under_sibling (Ne.symm neUbU) hx
    have hxL : isUnder x (g ++ ["saves"]) = false := not_under_sibling (Ne.symm neLbU) hx
    have hxbL : isUnder x (g ++ [bSavesL]) = false := not_under_sibling nebUbL hx
    rw [f4 x hxL hxbL, hfs3]
    by_cases hc : isDirAt fs2 (g ++ [bSavesU]) = true
    · rw [if_pos hc]
      rw [reRoot_kills fs2 _ _ x hx hxU]
      rw [hdbU] at hc
      rw [if_pos hc]
    · rw [if_neg hc]
      rw [f2 x hxU hxL]
      rw [hdbU] at hc
      rw [if_neg hc]
  · intro x hx
    have hxU : isUnder x (g ++ ["Saves"]) = false := not_under_sibling (Ne.symm neUbL) hx
    have hxL : isUnder x (g ++ ["saves"]) = false := not_under_sibling (Ne.symm neLbL) hx
    have hxbU : isUnder x (g ++ [bSavesU]) = false := not_under_sibling (Ne.symm nebUbL) hx
    rw [hfs4]
    by_cases hc : isDirAt fs3 (g ++ [bSavesL]) = true
    · rw [if_pos hc]
      rw [reRoot_kills fs3 _ _ x hx hxL]
      rw [hdbL3] at hc
      rw [if_pos hc]
    · rw [if_neg hc]
      rw [f3 x hxU hxbU, f2 x hxU hxL]
      rw [hdbL3] at hc
      rw [if_neg hc]

theorem savesStep_frame {acc : Fs} {g' x : Path}
    (h : ∀ s : String, isUnder x (g' ++ [s]) = false) :
    findE (savesStep acc g') x = findE acc x := by
  unfold savesStep
  by_cases hc : (isDirAt acc (g' ++ [bSavesU]) || isDirAt acc (g' ++ [bSavesL])) = true
  · rw [if_pos hc]
    exact restSaves_frame acc _ _ _ _ x (h "Saves") (h "saves") (h bSavesU) (h bSavesL)
  · rw [if_neg hc]

theorem savesStep_members {acc : Fs} {g' : Path} :
    ∀ pe ∈ savesStep acc g', pe ∈ acc ∨ isUnder pe.1 g' = true := by
  unfold savesStep
  by_cases hc : (isDirAt acc (g' ++ [bSavesU]) || isDirAt acc (g' ++ [bSavesL])) = true
  · rw [if_pos hc]
    intro pe h
    rcases restSaves_members acc _ _ _ _ pe h with h2 | h2 | h2
    · exact Or.inl h2
    · exact Or.inr (under_append_singleton h2)
    · exact Or.inr (under_append_singleton h2)
  · rw [if_neg hc]
    exact fun pe h => Or.inl h

theorem savesPass_frame {fs : Fs} {pfx : Path} {x : Path}
    (h : isUnder x (myGamesPath pfx) = false) :
    findE (savesPass fs pfx) x = findE fs x := by
  unfold savesPass
  by_cases hc : isDirAt fs (myGamesPath pfx) = true
  · rw [if_pos hc]
    refine foldl_preserves (fun acc => findE acc x = findE fs x) savesStep _ fs
      (fun acc g' hg' hP => ?_) rfl
    obtain ⟨a, rfl⟩ := mem_childDirs hg'
    have hframe : findE (savesStep acc (myGamesPath pfx ++ [a])) x = findE acc x := by
      refine savesStep_frame (fun s => ?_)
      cases hh : isUnder x (myGamesPath pfx ++ [a] ++ [s]) with
      | false => rfl
      | true =>
        have h2 : isUnder x (myGamesPath pfx) = true :=
          under_append_singleton (under_append_singleton hh)
        rw [h] at h2
        exact Bool.noConfusion h2
    exact hframe.trans hP
  · rw [if_neg hc]

/-- The saves pass restores a game directory `g` under `My Games` that has a
backup saves directory: afterwards the live `Saves`/`saves` subtrees hold the
corresponding backup subtrees (or nothing when that backup was absent), and a
present backup subtree is gone. -/
theorem savesPass_restores {fsI : Fs} {pfx g : Path}
    (hkeysI : (fsI.map Prod.fst).Nodup)
    (hmg : isDirAt fsI (myGamesPath pfx) = true)
    (hg : g ∈ childDirs fsI (myGamesPath pfx))
    (htrig : isDirAt fsI (g ++ [bSavesU]) = true ∨ isDirAt fsI (g ++ [bSavesL]) = true)
    (hcU : isDirAt fsI (g ++ ["Saves"]) = true
      ∨ ∀ pe ∈ fsI, isUnder pe.1 (g ++ ["Saves"]) = false)
    (hcL : isDirAt fsI (g ++ ["saves"]) = true
      ∨ ∀ pe ∈ fsI, isUnder pe.1 (g ++ ["saves"]) = false) :
    (∀ x, isUnder x (g ++ ["Saves"]) = true →
        findE (savesPass fsI pfx) x
          = if isDirAt fsI (g ++ [bSavesU]) then
              findE fsI (g ++ [bSavesU] ++ x.drop (g ++ ["Saves"]).length)
            else none)
    ∧ (∀ x, isUnder x (g ++ ["saves"]) = true →
        findE (savesPass fsI pfx) x
          = if isDirAt fsI (g ++ [bSavesL]) then
              findE fsI (g ++ [bSavesL] ++ x.drop (g ++ ["saves"]).length)
            else none)
    ∧ (∀ x, isUnder x (g ++ [bSavesU]) = true →
        findE (savesPass fsI pfx) x
          = if isDirAt fsI (g ++ [bSavesU]) then none else findE fsI x)
    ∧ (∀ x, isUnder x (g ++ [bSavesL]) = true →
        findE (savesPass fsI pfx) x
          = if isDirAt fsI (g ++ [bSavesL]) then none else findE fsI x) := by
  obtain ⟨a, hga⟩ := mem_childDirs hg
  unfold savesPass
  rw [if_pos hmg]
  obtain ⟨L1, L2, hsplit⟩ := List.append_of_mem hg
  have hnd : (childDirs fsI (myGamesPath pfx)).Nodup := childDirs_nodup hkeysI
  rw [hsplit] at hnd
  rw [hsplit, List.foldl_append, List.foldl_cons]
  have hgnotin : g ∉ L1 ∧ g ∉ L2 := by
    rw [List.nodup_append] at hnd
    obtain ⟨-, hnd2, hdisj0⟩ := hnd
    constructor
    · intro hmem1
      exact hdisj0 hmem1 (List.mem_cons_self _ _)
    · intro hmem2
      exact (List.nodup_cons.mp hnd2).1 hmem2
  have hmemL : ∀ g' ∈ L1 ++ g :: L2, g' ∈ childDirs fsI (myGamesPath pfx) := by
    rw [← hsplit]
    exact fun q h => h
  have hchild_ne : ∀ g', g' ∈ L1 ++ g :: L2 → g' ≠ g → ∀ x, isUnder x g = true →
      isUnder x g' = false := by
    intro g' hmem' hne x hx
    obtain ⟨a', ha'⟩ := mem_childDirs (hmemL g' hmem')
    cases hh : isUnder x g' with
    | false => rfl
    | true =>
      have hane : a ≠ a' := fun h => hne
        (ha'.trans ((congrArg (fun t => myGamesPath pfx ++ [t]) h.symm).trans hga.symm))
      rw [ha'] at hh
      rw [hga] at hx
      exact (sibling_not_under hane hx hh).elim
  have hdisj : ∀ g', g' ∈ L1 ++ g :: L2 → g' ≠ g → ∀ x, isUnder x g = true →
      ∀ s : String, isUnder x (g' ++ [s]) = false := by
    intro g' hmem' hne x hx s
    cases hh : isUnder x (g' ++ [s]) with
    | false => rfl
    | true =>
      have h2 := under_append_singleton hh
      rw [hchild_ne g' hmem' hne x hx] at h2
      exact Bool.noConfusion h2
  have hP1 : (∀ x, isUnder x g = true → findE (L1.foldl savesStep fsI) x = findE fsI x)
      ∧ (∀ pe ∈ L1.foldl savesStep fsI, isUnder pe.1 g = true → pe ∈ fsI) := by
    refine foldl_preserves
      (fun acc => (∀ x, isUnder x g = true → findE acc x = findE fsI x)
        ∧ (∀ pe ∈ acc, isUnder pe.1 g = true → pe ∈ fsI))
      savesStep L1 fsI (fun acc g' hg' hP => ?_) ⟨fun x _ => rfl, fun pe h _ => h⟩
    have hne : g' ≠ g := fun h => hgnotin.1 (h ▸ hg')
    have hmem' : g' ∈ L1 ++ g :: L2 := List.mem_append_left _ hg'
    constructor
    · intro x hx
      rw [savesStep_frame (hdisj g' hmem' hne x hx)]
      exact hP.1 x hx
    · intro pe hpe hunder
      rcases savesStep_members pe hpe with h2 | h2
      · exact hP.2 pe h2 hunder
      · rw [hchild_ne g' hmem' hne pe.1 hunder] at h2
        exact Bool.noConfusion h2
  set acc1 := L1.foldl savesStep fsI with hacc1
  have ebU : isDirAt acc1 (g ++ [bSavesU]) = isDirAt fsI (g ++ [bSavesU]) :=
    isDirAt_congr (hP1.1 _ (isUnder_append_right g [bSavesU]))
  have ebL : isDirAt acc1 (g ++ [bSavesL]) = isDirAt fsI (g ++ [bSavesL]) :=
    isDirAt_congr (hP1.1 _ (isUnder_append_right g [bSavesL]))
  have htrig' : (isDirAt acc1 (g ++ [bSavesU]) || isDirAt acc1 (g ++ [bSavesL])) = true := by
    rw [ebU, ebL]
    rcases htrig with h | h
    · rw [h, Bool.true_or]
    · rw [h, Bool.or_true]
  have hcU' : isDirAt acc1 (g ++ ["Saves"]) = true
      ∨ ∀ pe ∈ acc1, isUnder pe.1 (g ++ ["Saves"]) = false := by
    rcases hcU with hd | hcl
    · left
      rw [isDirAt_congr (hP1.1 _ (isUnder_append_right g ["Saves"]))]
      exact hd
    · right
      intro pe hpe
      cases hh : isUnder pe.1 (g ++ ["Saves"]) with
      | false => rfl
      | true =>
        have hg2 : isUnder pe.1 g = true := under_append_singleton hh
        have hcl2 := hcl pe (hP1.2 pe hpe hg2)
        rw [hh] at hcl2
        exact Bool.noConfusion hcl2
  have hcL' : isDirAt acc1 (g ++ ["saves"]) = true
      ∨ ∀ pe ∈ acc1, isUnder pe.1 (g ++ ["saves"]) = false := by
    rcases hcL with hd | hcl
    · left
      rw [isDirAt_congr (hP1.1 _ (isUnder_append_right g ["saves"]))]
      exact hd
    · right
      intro pe hpe
      cases hh : isUnder pe.1 (g ++ ["saves"]) with
      | false => rfl
      | true =>
        have hg2 : isUnder pe.1 g = true := under_append_singleton hh
        have hcl2 := hcl pe (hP1.2 pe hpe hg2)
        rw [hh] at hcl2
        exact Bool.noConfusion hcl2
  have hspec := restSaves_spec acc1 g hcU' hcL'
  have hstep : savesStep acc1 g
      = (restSaves acc1 (g ++ ["Saves"]) (g ++ ["saves"])
          (g ++ [bSavesU]) (g ++ [bSavesL])).1 := by
    unfold savesStep
    rw [if_pos htrig']
  rw [hstep]
  refine foldl_preserves
    (fun acc2 =>
      (∀ x, isUnder x (g ++ ["Saves"]) = true →
          findE acc2 x
            = if isDirAt fsI (g ++ [bSavesU]) then
                findE fsI (g ++ [bSavesU] ++ x.drop (g ++ ["Saves"]).length)
              else none)
      ∧ (∀ x, isUnder x (g ++ ["saves"]) = true →
          findE acc2 x
            = if isDirAt fsI (g ++ [bSavesL]) then
                findE fsI (g ++ [bSavesL] ++ x.drop (g ++ ["saves"]).length)
              else none)
      ∧ (∀ x, isUnder x (g ++ [bSavesU]) = true →
          findE acc2 x = if isDirAt fsI (g ++ [bSavesU]) then none else findE fsI x)
      ∧ (∀ x, isUnder x (g ++ [bSavesL]) = true →
          findE acc2 x = if isDirAt fsI (g ++ [bSavesL]) then none else findE fsI x))
    savesStep L2 _ (fun acc2 g' hg' hQ => ?_) ⟨?_, ?_, ?_, ?_⟩
  · have hne : g' ≠ g := fun h => hgnotin.2 (h ▸ hg')
    have hmem' : g' ∈ L1 ++ g :: L2 := List.mem_append_right _ (List.mem_cons_of_mem _ hg')
    refine ⟨fun x hx => ?_, fun x hx => ?_, fun x hx => ?_, fun x hx => ?_⟩
    · rw [savesStep_frame (hdisj g' hmem' hne x (under_append_singleton hx))]
      exact hQ.1 x hx
    · rw [savesStep_frame (hdisj g' hmem' hne x (under_append_singleton hx))]
      exact hQ.2.1 x hx
    · rw [savesStep_frame (hdisj g' hmem' hne x (under_append_singleton hx))]
      exact hQ.2.2.1 x hx
    · rw [savesStep_frame (hdisj g' hmem' hne x (under_append_singleton hx))]
      exact hQ.2.2.2 x hx
  · intro x hx
    rw [hspec.2.1 x hx, ebU]
    by_cases hd : isDirAt fsI (g ++ [bSavesU]) = true
    · rw [if_pos hd, if_pos hd]
      exact hP1.1 _ (isUnder_trans (isUnder_append_right (g ++ [bSavesU]) _)
        (isUnder_append_right g [bSavesU]))
    · rw [if_neg hd, if_neg hd]
  · intro x hx
    rw [hspec.2.2.1 x hx, ebL]
    by_cases hd : isDirAt fsI (g ++ [bSavesL]) = true
    · rw [if_pos hd, if_pos hd]
      exact hP1.1 _ (isUnder_trans (isUnder_append_right (g ++ [bSavesL]) _)
        (isUnder_append_right g [bSavesL]))
    · rw [if_neg hd, if_neg hd]
  · intro x hx
    rw [hspec.2.2.2.1 x hx, ebU]
    by_cases hd : isDirAt fsI (g ++ [bSavesU]) = true
    · rw [if_pos hd, if_pos hd]
    · rw [if_neg hd, if_neg hd]
      exact hP1.1 x (under_append_singleton hx)
  · intro x hx
    rw [hspec.2.2.2.2 x hx, ebL]
    by_cases hd : isDirAt fsI (g ++ [bSavesL]) = true
    · rw [if_pos hd, if_pos hd]
    · rw [if_neg hd, if_neg hd]
      exact hP1.1 x (under_append_singleton hx)

/-- C8: `WinePrefix::restoreStaleBackups` restores the observed backup
sentinels under the prefix: a file whose name ends in `.mo2linux_backup`
(under `drive_c`, with the stated side conditions) is moved back over its
live counterpart — the live file is replaced and the backup binding is
gone — and a game directory under `My Games` holding a
`.mo2linux_backup_Saves` / `.mo2linux_backup_saves` directory has its live
`Saves`/`saves` subtrees replaced by the corresponding backup subtrees,
the backup subtrees being removed in the process. -/
theorem restoreStaleBackups_spec
    (fs : Fs) (pfx p : Path) (n cp : String) (g : Path)
    (hkeys : (fs.map Prod.fst).Nodup)
    (hdc : isDirAt fs (drive_c pfx) = true)
    (hmem : p ∈ filesUnder fs (drive_c pfx))
    (hname : p.getLastD "" = n ++ bIniSfx)
    (hchain : strEndsWith n bIniSfx = false)
    (hnochain : ∀ r ∈ filesUnder fs (drive_c pfx),
        strEndsWith (strDropSuffix (r.getLastD "") bIniSfx) bIniSfx = false)
    (hlivedir : isDirAt fs (p.dropLast ++ [n]) = false)
    (hfind : findE fs p = some (.fileE cp))
    (hpM : isUnder p (myGamesPath pfx) = false)
    (hlM : isUnder (p.dropLast ++ [n]) (myGamesPath pfx) = false)
    (hkeysI : ((iniPass fs pfx).map Prod.fst).Nodup)
    (hmg : isDirAt (iniPass fs pfx) (myGamesPath pfx) = true)
    (hg : g ∈ childDirs (iniPass fs pfx) (myGamesPath pfx))
    (htrig : isDirAt (iniPass fs pfx) (g ++ [bSavesU]) = true
      ∨ isDirAt (iniPass fs pfx) (g ++ [bSavesL]) = true)
    (hcU : isDirAt (iniPass fs pfx) (g ++ ["Saves"]) = true
      ∨ ∀ pe ∈ iniPass fs pfx, isUnder pe.1 (g ++ ["Saves"]) = false)
    (hcL : isDirAt (iniPass fs pfx) (g ++ ["saves"]) = true
      ∨ ∀ pe ∈ iniPass fs pfx, isUnder pe.1 (g ++ ["saves"]) = false) :
    findE (restoreStaleBackups fs pfx) (p.dropLast ++ [n]) = some (.fileE cp)
    ∧ findE (restoreStaleBackups fs pfx) p = none
    ∧ (∀ x, isUnder x (g ++ ["Saves"]) = true →
        findE (restoreStaleBackups fs pfx) x
          = if isDirAt (iniPass fs pfx) (g ++ [bSavesU]) then
              findE (iniPass fs pfx) (g ++ [bSavesU] ++ x.drop (g ++ ["Saves"]).length)
            else none)
    ∧ (∀ x, isUnder x (g ++ ["saves"]) = true →
        findE (restoreStaleBackups fs pfx) x
          = if isDirAt (iniPass fs pfx) (g ++ [bSavesL]) then
              findE (iniPass fs pfx) (g ++ [bSavesL] ++ x.drop (g ++ ["saves"]).length)
            else none)
    ∧ (∀ x, isUnder x (g ++ [bSavesU]) = true →
        findE (restoreStaleBackups fs pfx) x
          = if isDirAt (iniPass fs pfx) (g ++ [bSavesU]) then none
            else findE (iniPass fs pfx) x)
    ∧ (∀ x, isUnder x (g ++ [bSavesL]) = true →
        findE (restoreStaleBackups fs pfx) x
          = if isDirAt (iniPass fs pfx) (g ++ [bSavesL]) then none
            else findE (iniPass fs pfx) x) := by
  have hrw : restoreStaleBackups fs pfx = savesPass (iniPass fs pfx) pfx := by
    unfold restoreStaleBackups
    rw [if_pos hdc]
  have hini := iniPass_restores hkeys hmem hname hchain hnochain hlivedir hfind
  have hsaves := savesPass_restores hkeysI hmg hg htrig hcU hcL
  rw [hrw]
  refine ⟨?_, ?_, hsaves.1, hsaves.2.1, hsaves.2.2.1, hsaves.2.2.2⟩
  · rw [savesPass_frame hlM]
    exact hini.1
  · rw [savesPass_frame hpM]
    exact hini.2

/-- Witness for C8 on the concrete store: the INI backup is moved back over
`game.ini` and the backup binding is gone. -/
theorem restoreStaleBackups_spec_witness :
    findE (restoreStaleBackups c8Fs c8Pfx) c8Live = some (.fileE "inidata")
    ∧ findE (restoreStaleBackups c8Fs c8Pfx) c8P = none := by
  have h := restoreStaleBackups_spec c8Fs c8Pfx c8P "game.ini" "inidata" c8G
    (by decide) (by decide) (by decide) (by decide) (by decide) (by decide)
    (by decide) rfl (by decide) (by decide) (by decide) (by decide)
    (by decide) (Or.inl (by decide)) (Or.inr (by decide)) (Or.inr (by decide))
  exact ⟨h.1, h.2.1⟩

/-! ## C1 — live flush drops the extra-file leaves (code bug) -/

/-- C1: with a non-empty extra-file map, the tree rebuilt by
`FuseConnector::flushStagingLive` has no leaf at the extra path (it never
calls `injectExtraFiles`), while the helper's `flush` branch — and the
mount/rebuild paths, which share `injectExtraFiles` — keep the leaf; so the
claim fails on the connector's own live-flush path. -/
theorem live_flush_drops_extra_leaves :
    c1Extras ≠ []
    ∧ findLeaf (flushStagingLiveTree c1Base [] [] c1Extras) ["plugins.txt"] = none
    ∧ findLeaf (helperFlushTree c1Base [] [] c1Extras) ["plugins.txt"]
      = some (VfsOrigin.extraO, "/home/user/profile/plugins.txt")
    ∧ findLeaf (injectExtraFiles (buildDataDirVfs c1Base [] []) c1Extras) ["plugins.txt"]
      ≠ none := by
  refine ⟨by decide, by decide, by decide, by decide⟩

end Fluorine
